import Mathlib

/-!
Verification of the algorithmic core of the CollatzBenfordAnalyzer repository
(`src/core/collatz_math.py` and the legacy module `src/Math.py`), shallowly
embedded in Lean 4.

Modelling conventions:
* Python's unbounded integers are `Int` (or `Nat` once positivity is fixed by
  the surrounding code); no overflow is possible in the source.
* A `raise ValueError(msg)` is `Except.error msg`; a normal return is
  `Except.ok`.
* The two potentially non-terminating loops (`collatz_orbit`'s while loop and
  the BFS while loop of `generate_inverse_collatz_tree`) are fuel-indexed and
  return `none` exactly when the Python loop would still be running after
  `fuel` iterations, so a `some` result is a faithful image of a terminating
  Python run.
-/

namespace CollatzBenford

deriving instance DecidableEq for Except

/-- Embedding of `collatz_step` (collatz_math.py, lines 7-33):
`ValueError` when `n <= 0`, otherwise `3n+1` for odd `n` and `n // 2`
(floor division, which on positive `n` agrees with `Int` division) for even. -/
def collatz_step (n : Int) : Except String Int :=
  if n ≤ 0 then Except.error "n must be > 0"
  else if n % 2 ≠ 0 then Except.ok (3 * n + 1) else Except.ok (n / 2)

/-- The positive branch of `collatz_step`, on naturals: the arithmetic applied
by the source once the `n <= 0` guard has passed. -/
def step (n : Nat) : Nat :=
  if n % 2 ≠ 0 then 3 * n + 1 else n / 2

/-- On positive naturals `collatz_step` succeeds and computes `step`. -/
theorem collatz_step_coe (n : Nat) (h : 0 < n) :
    collatz_step (n : Int) = Except.ok ((step n : Nat) : Int) := by
  unfold collatz_step step
  have h0 : ¬ ((n : Int) ≤ 0) := by exact_mod_cast Nat.not_le.mpr h
  rw [if_neg h0]
  by_cases hpar : n % 2 = 0
  · have h1 : ¬ ((n : Int) % 2 ≠ 0) := by omega
    have h2 : ¬ (n % 2 ≠ 0) := by omega
    rw [if_neg h1, if_neg h2]
    rfl
  · have h1 : (n : Int) % 2 ≠ 0 := by omega
    rw [if_pos h1, if_pos hpar]
    congr 1

/-- The body of `collatz_orbit`'s while loop (collatz_math.py, lines 36-62):
`seq = [n]; while n != 1: n = collatz_step(n); seq.append(n)`.
`none` means the loop is still running after `fuel` iterations. -/
def orbit_loop : Nat → Nat → List Nat → Option (List Nat)
  | 0, n, seq => if n = 1 then some seq else none
  | fuel + 1, n, seq =>
    if n = 1 then some seq else orbit_loop fuel (step n) (seq ++ [step n])

/-- Embedding of `collatz_orbit`: `ValueError` for `n <= 0`, otherwise the
while loop starting from `seq = [n]`. -/
def collatz_orbit (fuel : Nat) (n : Int) : Except String (Option (List Nat)) :=
  if n ≤ 0 then Except.error "n must be > 0"
  else Except.ok (orbit_loop fuel n.toNat [n.toNat])

/-- Embedding of `inverse_children` (collatz_math.py, lines 65-111): the odd
predecessor `(m-1)//3` is kept only under the `m % 6 == 4` guard together with
the source's defensive re-check, then the even predecessor `2*m` is appended.
The Python `and` short-circuits so `collatz_step` is only reached with `n > 0`;
the conjunction below has the same value in every case. -/
def inverse_children (m : Int) : Except String (List Int) :=
  if m ≤ 0 then Except.error "m must be > 0"
  else
    let odds : List Int :=
      if m % 6 = 4 then
        let n := (m - 1) / 3
        if 0 < n ∧ n % 2 = 1 ∧ collatz_step n = Except.ok m then [n] else []
      else []
    Except.ok (odds ++ [2 * m])

/-- The `while n >= 10: n //= 10` loop of `leading_digit`
(collatz_math.py, lines 114-120); for `n = 0` it returns `0` just as the
source's explicit `if n == 0` branch does. -/
def ldLoop (n : Nat) : Nat :=
  if n < 10 then n else ldLoop (n / 10)
termination_by n
decreasing_by
  have : 0 < n := by omega
  exact Nat.div_lt_self this (by omega)

/-- Embedding of `leading_digit` (core module): leading decimal digit of
`abs(n)`, and `0` for the input `0`. -/
def leading_digit (n : Int) : Nat :=
  ldLoop n.natAbs

/-- The `counts` local of `leading_digit_frequencies`: for each digit
`d = 1..9` (the source's `digits = list(range(1, 10))`), how many input values
have leading digit `d` (`Counter` lookups with default 0). -/
def digitCounts (numbers : List Int) : List Nat :=
  (List.range' 1 9).map (fun d => numbers.countP (fun n => leading_digit n == d))

/-- Embedding of `leading_digit_frequencies` (collatz_math.py, lines 122-152)
over exact rationals: per-digit counts for digits 1..9, nine zeros when the
total is zero, otherwise `count / total`. -/
def leading_digit_frequencies (numbers : List Int) : List ℚ :=
  let counts := digitCounts numbers
  let total := counts.sum
  if total = 0 then List.replicate 9 (0 : ℚ)
  else counts.map (fun c : Nat => (c : ℚ) / (total : ℚ))

/-- Embedding of the `EdgeType` enum. The Python member names are `EVEN` and
`ODD` (the string values "DOUBLE"/"ODD" are irrelevant to the algorithms). -/
inductive EdgeType where
  | EVEN
  | ODD
deriving DecidableEq, Repr

/-- Embedding of the frozen `Node` dataclass. -/
structure Node where
  id : Nat
  value : Nat
  parent_id : Option Nat
  depth : Nat
  parent_edge_type : Option EdgeType
deriving DecidableEq, Repr

/-- The fixed seeded chain `1 -> 2 -> 4 -> 8 -> 16` that
`generate_inverse_collatz_tree` creates before any BFS expansion. -/
def seedNodes : List Node :=
  [⟨0, 1, none, 0, none⟩,
   ⟨1, 2, some 0, 1, some EdgeType.EVEN⟩,
   ⟨2, 4, some 1, 2, some EdgeType.EVEN⟩,
   ⟨3, 8, some 2, 3, some EdgeType.EVEN⟩,
   ⟨4, 16, some 3, 4, some EdgeType.EVEN⟩]

/-- The source's budget test `max_nodes is not None and len(nodes) >= max_nodes`. -/
def budgetReached (mn : Option Nat) (len : Nat) : Bool :=
  match mn with
  | none => false
  | some k => k ≤ len

/-- The BFS while loop of `generate_inverse_collatz_tree`
(collatz_math.py, lines 246-265).  State: the node arena (ids are positions)
and the id queue; each iteration checks the budget, pops `u`, always appends
the `EVEN` child `2*u.value` (stopping if it matches `target`), and only then
possibly appends the `ODD` child `(u.value-1)//3` under the `u.value % 6 == 4`
guard (stopping if it matches).  `none` = the Python loop would still run
after `fuel` iterations. -/
def bfsLoop (target : Nat) (mn : Option Nat) :
    Nat → List Node → List Nat → Option (List Node)
  | _, nodes, [] => some nodes
  | 0, _, _ :: _ => none
  | fuel + 1, nodes, uId :: qRest =>
    if budgetReached mn nodes.length then some nodes
    else
      match nodes[uId]? with
      | none => none
      | some u =>
        let nd := u.depth + 1
        let c1 := 2 * u.value
        let nodes1 := nodes ++ [⟨nodes.length, c1, some uId, nd, some EdgeType.EVEN⟩]
        let q1 := qRest ++ [nodes.length]
        if c1 = target then some nodes1
        else if u.value % 6 = 4 then
          let c2 := (u.value - 1) / 3
          let nodes2 := nodes1 ++ [⟨nodes1.length, c2, some uId, nd, some EdgeType.ODD⟩]
          let q2 := q1 ++ [nodes1.length]
          if c2 = target then some nodes2
          else bfsLoop target mn fuel nodes2 q2
        else bfsLoop target mn fuel nodes1 q1

/-- Embedding of `generate_inverse_collatz_tree` (collatz_math.py, lines
199-265).  `ValueError` on `target <= 0`; the seeded prefix is returned
directly when `target` is one of 1, 2, 4, 8, 16 (the source appends the seed
nodes one at a time and returns right after the matching one); otherwise the
BFS starts from the queue `[4]` (only node 16 was enqueued).  The source's
default budget is `max_nodes = 200000`. -/
def generate_inverse_collatz_tree (fuel : Nat) (target : Int) (mn : Option Nat) :
    Except String (Option (List Node)) :=
  if target ≤ 0 then Except.error "target must be a positive integer"
  else if target = 1 then Except.ok (some (seedNodes.take 1))
  else if target = 2 then Except.ok (some (seedNodes.take 2))
  else if target = 4 then Except.ok (some (seedNodes.take 3))
  else if target = 8 then Except.ok (some (seedNodes.take 4))
  else if target = 16 then Except.ok (some seedNodes)
  else Except.ok (bfsLoop target.toNat mn fuel seedNodes [4])

/-! ### The forward orbit (claim C3) -/

/-- `step` maps positives to positives. -/
theorem step_pos (n : Nat) (h : 0 < n) : 0 < step n := by
  unfold step
  split <;> omega

/-- The adjacency relation of an orbit: `b` is the result of the source's
`collatz_step` applied to `a`. -/
def stepRel (a b : Nat) : Prop :=
  collatz_step (a : Int) = Except.ok (b : Int)

/-- Orbit-loop invariant: a successful run extends the accumulator, ends at 1
and is a `collatz_step` chain throughout. -/
theorem orbit_loop_spec :
    ∀ (fuel n : Nat) (seq out : List Nat),
      0 < n → orbit_loop fuel n seq = some out →
      seq.getLast? = some n → List.Chain' stepRel seq →
      (∃ t, out = seq ++ t) ∧ out.getLast? = some 1 ∧ List.Chain' stepRel out := by
  intro fuel
  induction fuel with
  | zero =>
    intro n seq out hn hrun hlast hchain
    unfold orbit_loop at hrun
    by_cases h1 : n = 1
    · rw [if_pos h1] at hrun
      cases hrun
      subst h1
      exact ⟨⟨[], by simp⟩, hlast, hchain⟩
    · rw [if_neg h1] at hrun
      cases hrun
  | succ f ih =>
    intro n seq out hn hrun hlast hchain
    unfold orbit_loop at hrun
    by_cases h1 : n = 1
    · rw [if_pos h1] at hrun
      cases hrun
      subst h1
      exact ⟨⟨[], by simp⟩, hlast, hchain⟩
    · rw [if_neg h1] at hrun
      have hpos := step_pos n hn
      have hlast2 : (seq ++ [step n]).getLast? = some (step n) :=
        List.getLast?_concat seq
      have hchain2 : List.Chain' stepRel (seq ++ [step n]) := by
        refine List.Chain'.append hchain (List.chain'_singleton _) ?_
        intro x hx y hy
        rw [hlast] at hx
        cases hx
        simp only [List.head?] at hy
        cases hy
        exact collatz_step_coe n hn
      obtain ⟨⟨t, ht⟩, hlast1, hchain1⟩ :=
        ih (step n) (seq ++ [step n]) out hpos hrun hlast2 hchain2
      refine ⟨⟨step n :: t, ?_⟩, hlast1, hchain1⟩
      rw [ht, List.append_assoc]
      rfl

/-- C3: for every positive `n`, whenever `collatz_orbit` terminates (returns a
sequence), that sequence starts with `n`, ends with `1`, has length at least 1,
and every adjacent pair `(a, b)` satisfies `collatz_step a = b`. -/
theorem collatz_orbit_c3 (fuel : Nat) (n : Int) (seq : List Nat)
    (hn : 0 < n) (h : collatz_orbit fuel n = Except.ok (some seq)) :
    seq.head? = some n.toNat ∧ seq.getLast? = some 1 ∧ 1 ≤ seq.length ∧
    List.Chain' stepRel seq := by
  unfold collatz_orbit at h
  rw [if_neg (by omega)] at h
  injection h with h
  have hpos : 0 < n.toNat := by omega
  obtain ⟨⟨t, ht⟩, hlast, hchain⟩ :=
    orbit_loop_spec fuel n.toNat [n.toNat] seq hpos h (by simp)
      (List.chain'_singleton _)
  subst ht
  exact ⟨by simp, hlast, by simp, hchain⟩

/-- Witness for C3 at `n = 6`, `fuel = 10`. -/
theorem collatz_orbit_c3_witness :
    (0 : Int) < 6 ∧
    collatz_orbit 10 6 = Except.ok (some [6, 3, 10, 5, 16, 8, 4, 2, 1]) ∧
    (([6, 3, 10, 5, 16, 8, 4, 2, 1] : List Nat).head? = some (6 : Int).toNat ∧
     ([6, 3, 10, 5, 16, 8, 4, 2, 1] : List Nat).getLast? = some 1 ∧
     1 ≤ ([6, 3, 10, 5, 16, 8, 4, 2, 1] : List Nat).length ∧
     List.Chain' stepRel [6, 3, 10, 5, 16, 8, 4, 2, 1]) :=
  ⟨by decide, by decide, collatz_orbit_c3 10 6 _ (by decide) (by decide)⟩

/-! ### Error handling (claim C8) -/

/-- C8: each of the four operations fails with the `ValueError` embedding
exactly when its integer argument is non-positive; in the error case the
result carries no partial data (no nodes, no collected values). -/
theorem invalid_argument_c8 (n : Int) (fuel : Nat) (mn : Option Nat) :
    ((∃ e, collatz_step n = Except.error e) ↔ n ≤ 0) ∧
    ((∃ e, collatz_orbit fuel n = Except.error e) ↔ n ≤ 0) ∧
    ((∃ e, inverse_children n = Except.error e) ↔ n ≤ 0) ∧
    ((∃ e, generate_inverse_collatz_tree fuel n mn = Except.error e) ↔ n ≤ 0) := by
  by_cases h : n ≤ 0
  · refine ⟨?_, ?_, ?_, ?_⟩ <;>
      simp [collatz_step, collatz_orbit, inverse_children,
        generate_inverse_collatz_tree, h]
  · refine ⟨?_, ?_, ?_, ?_⟩ <;>
      · simp only [collatz_step, collatz_orbit, inverse_children,
          generate_inverse_collatz_tree, if_neg h]
        constructor
        · rintro ⟨e, he⟩
          revert he
          first
          | (split_ifs <;> simp)
          | simp
        · intro hc
          exact absurd hc h

/-! ### Inverse predecessors (claim C9) -/

/-- C9: the defensive re-verification inside `inverse_children` never rejects:
for positive `m` with `m % 6 = 4` the odd candidate `(m-1)/3` is positive, odd
and steps forward to `m`; hence `inverse_children` returns exactly two
predecessors when `m % 6 = 4` and exactly one (`2*m`) otherwise, and every
returned predecessor steps forward to `m`. -/
theorem inverse_children_c9 (m : Int) (hm : 0 < m) :
    (m % 6 = 4 →
      0 < (m - 1) / 3 ∧ ((m - 1) / 3) % 2 = 1 ∧
      collatz_step ((m - 1) / 3) = Except.ok m) ∧
    inverse_children m =
      Except.ok (if m % 6 = 4 then [(m - 1) / 3, 2 * m] else [2 * m]) ∧
    (∀ p ∈ (if m % 6 = 4 then [(m - 1) / 3, 2 * m] else [2 * m]),
       collatz_step p = Except.ok m) := by
  have heven : collatz_step (2 * m) = Except.ok m := by
    unfold collatz_step
    rw [if_neg (by omega)]
    rw [if_neg (by omega)]
    congr 1
    omega
  have hodd : m % 6 = 4 →
      0 < (m - 1) / 3 ∧ ((m - 1) / 3) % 2 = 1 ∧
      collatz_step ((m - 1) / 3) = Except.ok m := by
    intro h6
    have h1 : 0 < (m - 1) / 3 := by omega
    have h2 : ((m - 1) / 3) % 2 = 1 := by omega
    have h3 : 3 * ((m - 1) / 3) + 1 = m := by omega
    refine ⟨h1, h2, ?_⟩
    unfold collatz_step
    rw [if_neg (by omega)]
    rw [if_pos (by omega)]
    rw [h3]
  refine ⟨hodd, ?_, ?_⟩
  · unfold inverse_children
    rw [if_neg (by omega)]
    by_cases h6 : m % 6 = 4
    · obtain ⟨h1, h2, h3⟩ := hodd h6
      rw [if_pos h6, if_pos h6]
      simp only [if_pos (⟨h1, h2, h3⟩ : 0 < (m - 1) / 3 ∧ ((m - 1) / 3) % 2 = 1 ∧
        collatz_step ((m - 1) / 3) = Except.ok m)]
      rfl
    · rw [if_neg h6, if_neg h6]
      rfl
  · intro p hp
    by_cases h6 : m % 6 = 4
    · rw [if_pos h6] at hp
      simp only [List.mem_cons, List.not_mem_nil, or_false] at hp
      rcases hp with hp | hp
      · subst hp
        exact (hodd h6).2.2
      · subst hp
        exact heven
    · rw [if_neg h6] at hp
      simp only [List.mem_cons, List.not_mem_nil, or_false] at hp
      subst hp
      exact heven

/-- Witness for C9 at `m = 4`. -/
theorem inverse_children_c9_witness :
    (0 : Int) < 4 ∧
    (((4 : Int) % 6 = 4 →
       0 < ((4 : Int) - 1) / 3 ∧ (((4 : Int) - 1) / 3) % 2 = 1 ∧
       collatz_step (((4 : Int) - 1) / 3) = Except.ok 4) ∧
     inverse_children 4 =
       Except.ok (if (4 : Int) % 6 = 4 then [((4 : Int) - 1) / 3, 2 * 4]
         else [2 * 4]) ∧
     (∀ p ∈ (if (4 : Int) % 6 = 4 then [((4 : Int) - 1) / 3, 2 * 4]
         else [2 * 4]), collatz_step p = Except.ok 4)) :=
  ⟨by decide, inverse_children_c9 4 (by decide)⟩

/-! ### The seeded prefix (claim C5) -/

/-- C5: for each target in 1, 2, 4, 8, 16, the builder returns exactly the
seeded prefix chain 1 -> 2 -> ... -> target with ids and depths `0..k` and
`EVEN` edges on every non-root node, independently of fuel and budget -- i.e.
with no BFS expansion at all. -/
theorem generate_seed_c5 (fuel : Nat) (mn : Option Nat) :
    generate_inverse_collatz_tree fuel 1 mn =
      Except.ok (some [⟨0, 1, none, 0, none⟩]) ∧
    generate_inverse_collatz_tree fuel 2 mn =
      Except.ok (some [⟨0, 1, none, 0, none⟩,
        ⟨1, 2, some 0, 1, some EdgeType.EVEN⟩]) ∧
    generate_inverse_collatz_tree fuel 4 mn =
      Except.ok (some [⟨0, 1, none, 0, none⟩,
        ⟨1, 2, some 0, 1, some EdgeType.EVEN⟩,
        ⟨2, 4, some 1, 2, some EdgeType.EVEN⟩]) ∧
    generate_inverse_collatz_tree fuel 8 mn =
      Except.ok (some [⟨0, 1, none, 0, none⟩,
        ⟨1, 2, some 0, 1, some EdgeType.EVEN⟩,
        ⟨2, 4, some 1, 2, some EdgeType.EVEN⟩,
        ⟨3, 8, some 2, 3, some EdgeType.EVEN⟩]) ∧
    generate_inverse_collatz_tree fuel 16 mn =
      Except.ok (some [⟨0, 1, none, 0, none⟩,
        ⟨1, 2, some 0, 1, some EdgeType.EVEN⟩,
        ⟨2, 4, some 1, 2, some EdgeType.EVEN⟩,
        ⟨3, 8, some 2, 3, some EdgeType.EVEN⟩,
        ⟨4, 16, some 3, 4, some EdgeType.EVEN⟩]) :=
  ⟨rfl, rfl, rfl, rfl, rfl⟩

/-! ### EVEN child first during BFS expansion (claim C6) -/

/-- C6: when a node `u` is dequeued (budget not reached), the `EVEN` child
`2*u.value` is created and checked against `target` first: if it matches, the
run stops with the node list ending in that `EVEN` child -- no `ODD` child of
`u` and no later node exists; if it does not match and the `ODD` candidate
exists and matches, the `ODD` child is appended only after the `EVEN` one. -/
theorem bfs_even_first_c6 (fuel target : Nat) (mn : Option Nat)
    (nodes : List Node) (uId : Nat) (qRest : List Nat) (u : Node)
    (hb : budgetReached mn nodes.length = false)
    (hu : nodes[uId]? = some u) :
    (2 * u.value = target →
      bfsLoop target mn (fuel + 1) nodes (uId :: qRest) =
        some (nodes ++ [⟨nodes.length, 2 * u.value, some uId, u.depth + 1,
          some EdgeType.EVEN⟩])) ∧
    (2 * u.value ≠ target → u.value % 6 = 4 → (u.value - 1) / 3 = target →
      bfsLoop target mn (fuel + 1) nodes (uId :: qRest) =
        some (nodes ++
          [⟨nodes.length, 2 * u.value, some uId, u.depth + 1,
            some EdgeType.EVEN⟩,
           ⟨nodes.length + 1, (u.value - 1) / 3, some uId, u.depth + 1,
            some EdgeType.ODD⟩])) := by
  constructor
  · intro ht
    simp [bfsLoop, hb, hu, ht]
  · intro hne h6 ht
    simp [bfsLoop, hb, hu, hne, h6, ht, List.append_assoc]

/-- Witness for C6: dequeuing the seed node 16 with target 32. -/
theorem bfs_even_first_c6_witness :
    budgetReached (some 100) seedNodes.length = false ∧
    seedNodes[4]? = some ⟨4, 16, some 3, 4, some EdgeType.EVEN⟩ ∧
    ((2 * 16 = 32 →
      bfsLoop 32 (some 100) (0 + 1) seedNodes (4 :: []) =
        some (seedNodes ++ [⟨seedNodes.length, 2 * 16, some 4, 4 + 1,
          some EdgeType.EVEN⟩])) ∧
     (2 * 16 ≠ 32 → 16 % 6 = 4 → (16 - 1) / 3 = 32 →
      bfsLoop 32 (some 100) (0 + 1) seedNodes (4 :: []) =
        some (seedNodes ++
          [⟨seedNodes.length, 2 * 16, some 4, 4 + 1, some EdgeType.EVEN⟩,
           ⟨seedNodes.length + 1, (16 - 1) / 3, some 4, 4 + 1,
            some EdgeType.ODD⟩]))) :=
  ⟨by decide, by decide,
    bfs_even_first_c6 0 32 (some 100) seedNodes 4 []
      ⟨4, 16, some 3, 4, some EdgeType.EVEN⟩ (by decide) (by decide)⟩

/-! ### Node budget (claim C2, corrected) -/

/-- A successful BFS run grows the arena to at most `max start (k+1)` nodes:
the loop only runs while the arena is strictly below `k` and one iteration
appends at most two nodes. -/
theorem bfs_length :
    ∀ (fuel : Nat) (nodes : List Node) (q : List Nat) (out : List Node)
      (target k : Nat),
      bfsLoop target (some k) fuel nodes q = some out →
      out.length ≤ max nodes.length (k + 1) := by
  intro fuel
  induction fuel with
  | zero =>
    intro nodes q out target k h
    cases q with
    | nil =>
      simp only [bfsLoop, Option.some.injEq] at h
      subst h
      exact le_max_left _ _
    | cons a as =>
      simp only [bfsLoop] at h
      cases h
  | succ f ih =>
    intro nodes q out target k h
    cases q with
    | nil =>
      simp only [bfsLoop, Option.some.injEq] at h
      subst h
      exact le_max_left _ _
    | cons uId qRest =>
      simp only [bfsLoop] at h
      by_cases hb : budgetReached (some k) nodes.length = true
      · rw [if_pos hb] at h
        simp only [Option.some.injEq] at h
        subst h
        exact le_max_left _ _
      · rw [if_neg hb] at h
        have hblt : nodes.length < k := by
          simp only [budgetReached, decide_eq_true_eq] at hb
          omega
        cases hu : nodes[uId]? with
        | none => rw [hu] at h; cases h
        | some u =>
          rw [hu] at h
          simp only at h
          by_cases h1 : 2 * u.value = target
          · rw [if_pos h1] at h
            simp only [Option.some.injEq] at h
            subst h
            simp only [List.length_append, List.length_cons, List.length_nil]
            omega
          · rw [if_neg h1] at h
            by_cases h6 : u.value % 6 = 4
            · rw [if_pos h6] at h
              by_cases h2 : (u.value - 1) / 3 = target
              · rw [if_pos h2] at h
                simp only [Option.some.injEq] at h
                subst h
                simp only [List.length_append, List.length_cons, List.length_nil]
                omega
              · rw [if_neg h2] at h
                have := ih _ _ out target k h
                simp only [List.length_append, List.length_cons,
                  List.length_nil] at this
                omega
            · rw [if_neg h6] at h
              have := ih _ _ out target k h
              simp only [List.length_append, List.length_cons,
                List.length_nil] at this
              omega

/-- C2 counterexample: with budget `k = 1` and target 3 the builder returns
the 5 seeded nodes, exceeding `k + 2 = 3`: the fixed seed chain is created
before the budget is ever consulted. -/
theorem generate_budget_c2_cx :
    generate_inverse_collatz_tree 1 3 (some 1) = Except.ok (some seedNodes) ∧
    ¬ (seedNodes.length ≤ 1 + 2) := by
  constructor
  · decide
  · decide

/-- C2 (amended): for every positive target and positive budget `k` a
successful run returns at most `max (k+2) 5` nodes; the claimed `k+2` bound
holds for every `k ≥ 3`, while for `k ∈ {1,2}` the 5 seeded nodes already
exceed it. -/
theorem generate_budget_c2 (fuel k : Nat) (target : Int) (out : List Node)
    (hk : 0 < k) (ht : 0 < target)
    (h : generate_inverse_collatz_tree fuel target (some k) =
      Except.ok (some out)) :
    out.length ≤ max (k + 2) 5 := by
  unfold generate_inverse_collatz_tree at h
  rw [if_neg (by omega)] at h
  split_ifs at h
  all_goals
    simp only [Except.ok.injEq, Option.some.injEq] at h
  case _ =>
    subst h; simp [seedNodes]
  case _ =>
    subst h; simp [seedNodes]
  case _ =>
    subst h; simp [seedNodes]
  case _ =>
    subst h; simp [seedNodes]
  case _ =>
    subst h; simp [seedNodes]
  case _ =>
    have := bfs_length fuel seedNodes [4] out target.toNat k h
    simp only [seedNodes, List.length_cons, List.length_nil] at this
    omega

/-- Witness for C2 at `fuel = 1`, `k = 1`, `target = 3`. -/
theorem generate_budget_c2_witness :
    0 < 1 ∧ (0 : Int) < 3 ∧
    generate_inverse_collatz_tree 1 3 (some 1) = Except.ok (some seedNodes) ∧
    seedNodes.length ≤ max (1 + 2) 5 :=
  ⟨by decide, by decide, by decide,
    generate_budget_c2 1 1 3 seedNodes (by decide) (by decide) (by decide)⟩

/-! ### Parent invariant of the inverse tree (claim C1) -/

/-- A node is consistent with its parent inside a given arena: either it is a
root, or its `parent_id` resolves and the forward `collatz_step` of its value
is the parent's value, with depth one more than the parent's. -/
def nodeOk (nodes : List Node) (n : Node) : Bool :=
  Option.elim n.parent_id true (fun pid =>
    Option.elim nodes[pid]? false (fun p =>
      decide (collatz_step (n.value : Int) = Except.ok (p.value : Int)) &&
      decide (n.depth = p.depth + 1)))

/-- Every node of the arena is consistent with its parent. -/
def parentOk (nodes : List Node) : Bool :=
  nodes.all (fun n => nodeOk nodes n)

/-- `nodeOk` is preserved when the arena grows at the end. -/
theorem nodeOk_append (nodes ext : List Node) (n : Node)
    (h : nodeOk nodes n = true) : nodeOk (nodes ++ ext) n = true := by
  unfold nodeOk at h ⊢
  cases hpid : n.parent_id with
  | none => simp
  | some pid =>
    rw [hpid] at h
    simp only [Option.elim_some] at h ⊢
    cases hu : nodes[pid]? with
    | none =>
      rw [hu] at h
      cases h
    | some p =>
      rw [hu] at h
      have hlt : pid < nodes.length := by
        by_contra hge
        rw [List.getElem?_eq_none (by omega)] at hu
        cases hu
      rw [List.getElem?_append_left hlt, hu]
      exact h

/-- Appending a node that is consistent in the extended arena preserves the
global parent invariant. -/
theorem parentOk_snoc (nodes : List Node) (c : Node)
    (h : parentOk nodes = true) (hc : nodeOk (nodes ++ [c]) c = true) :
    parentOk (nodes ++ [c]) = true := by
  unfold parentOk at h ⊢
  rw [List.all_eq_true] at h ⊢
  intro n hn
  rcases List.mem_append.mp hn with hn | hn
  · exact nodeOk_append nodes [c] n (h n hn)
  · simp only [List.mem_singleton] at hn
    subst hn
    exact hc

/-- `collatz_step` undoes the doubling predecessor. -/
theorem collatz_step_even (v : Nat) (hv : 0 < v) :
    collatz_step ((2 * v : Nat) : Int) = Except.ok (v : Int) := by
  unfold collatz_step
  rw [if_neg (by omega), if_neg (by omega)]
  congr 1
  omega

/-- `collatz_step` undoes the odd predecessor under the `v % 6 = 4` guard. -/
theorem collatz_step_oddpred (v : Nat) (h6 : v % 6 = 4) :
    collatz_step ((((v - 1) / 3 : Nat)) : Int) = Except.ok (v : Int) := by
  unfold collatz_step
  rw [if_neg (by omega), if_pos (by omega)]
  congr 1
  omega

/-- Appending a child of the node found at `uId`, whose value steps forward to
that node's value and whose depth is one more, preserves the invariant. -/
theorem parentOk_append_child (nodes : List Node) (uId : Nat) (u : Node)
    (v : Nat) (e : Option EdgeType)
    (hu : nodes[uId]? = some u)
    (hstep : collatz_step (v : Int) = Except.ok (u.value : Int))
    (hok : parentOk nodes = true) :
    parentOk (nodes ++ [⟨nodes.length, v, some uId, u.depth + 1, e⟩]) = true := by
  refine parentOk_snoc nodes _ hok ?_
  have hlt : uId < nodes.length := by
    by_contra hge
    rw [List.getElem?_eq_none (by omega)] at hu
    cases hu
  simp [nodeOk, List.getElem?_append_left hlt, hu, hstep]

/-- Value-positivity is preserved by appending a positive-valued node. -/
theorem pos_snoc (nodes : List Node) (c : Node)
    (h : ∀ n ∈ nodes, 0 < n.value) (hc : 0 < c.value) :
    ∀ n ∈ nodes ++ [c], 0 < n.value := by
  intro n hn
  rcases List.mem_append.mp hn with hn | hn
  · exact h n hn
  · simp only [List.mem_singleton] at hn
    subst hn
    exact hc

/-- BFS invariant: a successful run starting from a parent-consistent arena of
positive values with in-range queued ids ends parent-consistent. -/
theorem bfs_parentOk :
    ∀ (fuel : Nat) (nodes : List Node) (q : List Nat) (out : List Node)
      (target : Nat) (mn : Option Nat),
      parentOk nodes = true →
      (∀ n ∈ nodes, 0 < n.value) →
      (∀ i ∈ q, i < nodes.length) →
      bfsLoop target mn fuel nodes q = some out →
      parentOk out = true := by
  intro fuel
  induction fuel with
  | zero =>
    intro nodes q out target mn hok hpos hq h
    cases q with
    | nil =>
      simp only [bfsLoop, Option.some.injEq] at h
      subst h
      exact hok
    | cons a as =>
      simp only [bfsLoop] at h
      cases h
  | succ f ih =>
    intro nodes q out target mn hok hpos hq h
    cases q with
    | nil =>
      simp only [bfsLoop, Option.some.injEq] at h
      subst h
      exact hok
    | cons uId qRest =>
      simp only [bfsLoop] at h
      by_cases hb : budgetReached mn nodes.length = true
      · rw [if_pos hb] at h
        simp only [Option.some.injEq] at h
        subst h
        exact hok
      · rw [if_neg hb] at h
        cases hu : nodes[uId]? with
        | none => rw [hu] at h; cases h
        | some u =>
          rw [hu] at h
          simp only at h
          have huIdlt : uId < nodes.length := hq uId (List.mem_cons_self _ _)
          have hupos : 0 < u.value := hpos u (List.getElem?_mem hu)
          have hok1 := parentOk_append_child nodes uId u (2 * u.value)
            (some EdgeType.EVEN) hu (collatz_step_even u.value hupos) hok
          have hpos1 := pos_snoc nodes
            ⟨nodes.length, 2 * u.value, some uId, u.depth + 1,
              some EdgeType.EVEN⟩ hpos (by show 0 < 2 * u.value; omega)
          by_cases h1 : 2 * u.value = target
          · rw [if_pos h1] at h
            simp only [Option.some.injEq] at h
            subst h
            exact hok1
          · rw [if_neg h1] at h
            by_cases h6 : u.value % 6 = 4
            · rw [if_pos h6] at h
              have hu1 : (nodes ++ [(⟨nodes.length, 2 * u.value, some uId,
                  u.depth + 1, some EdgeType.EVEN⟩ : Node)])[uId]? = some u := by
                rw [List.getElem?_append_left huIdlt]
                exact hu
              have hok2 := parentOk_append_child
                (nodes ++ [⟨nodes.length, 2 * u.value, some uId, u.depth + 1,
                  some EdgeType.EVEN⟩]) uId u ((u.value - 1) / 3)
                (some EdgeType.ODD) hu1 (collatz_step_oddpred u.value h6) hok1
              have hpos2 := pos_snoc
                (nodes ++ [⟨nodes.length, 2 * u.value, some uId, u.depth + 1,
                  some EdgeType.EVEN⟩])
                ⟨(nodes ++ [(⟨nodes.length, 2 * u.value, some uId, u.depth + 1,
                    some EdgeType.EVEN⟩ : Node)]).length,
                  (u.value - 1) / 3, some uId, u.depth + 1,
                  some EdgeType.ODD⟩ hpos1
                (by show 0 < (u.value - 1) / 3; omega)
              by_cases h2 : (u.value - 1) / 3 = target
              · rw [if_pos h2] at h
                simp only [Option.some.injEq] at h
                subst h
                exact hok2
              · rw [if_neg h2] at h
                refine ih _ _ out target mn hok2 hpos2 ?_ h
                intro i hi
                simp only [List.length_append, List.length_cons, List.length_nil]
                rcases List.mem_append.mp hi with hi | hi
                · rcases List.mem_append.mp hi with hi | hi
                  · have := hq i (List.mem_cons_of_mem _ hi)
                    omega
                  · simp only [List.mem_singleton] at hi
                    subst hi
                    omega
                · simp only [List.mem_singleton] at hi
                  subst hi
                  simp only [List.length_append, List.length_cons, List.length_nil]
                  omega
            · rw [if_neg h6] at h
              refine ih _ _ out target mn hok1 hpos1 ?_ h
              intro i hi
              simp only [List.length_append, List.length_cons, List.length_nil]
              rcases List.mem_append.mp hi with hi | hi
              · have := hq i (List.mem_cons_of_mem _ hi)
                omega
              · simp only [List.mem_singleton] at hi
                subst hi
                omega

/-- C1: in every list returned by the tree builder for a positive target, each
non-root node's value steps forward (via `collatz_step`) to its parent's
value, and its depth is its parent's depth plus one. -/
theorem generate_tree_c1 (fuel : Nat) (target : Int) (mn : Option Nat)
    (out : List Node) (ht : 0 < target)
    (h : generate_inverse_collatz_tree fuel target mn = Except.ok (some out)) :
    parentOk out = true := by
  unfold generate_inverse_collatz_tree at h
  rw [if_neg (by omega)] at h
  split_ifs at h
  all_goals
    simp only [Except.ok.injEq, Option.some.injEq] at h
  case _ => subst h; decide
  case _ => subst h; decide
  case _ => subst h; decide
  case _ => subst h; decide
  case _ => subst h; decide
  case _ =>
    refine bfs_parentOk fuel seedNodes [4] out target.toNat mn
      (by decide) (by decide) (by decide) h

/-- Witness for C1: the full run for target 3 under budget 100. -/
theorem generate_tree_c1_witness :
    (0 : Int) < 3 ∧
    generate_inverse_collatz_tree 20 3 (some 100) = Except.ok (some
      [⟨0, 1, none, 0, none⟩,
       ⟨1, 2, some 0, 1, some EdgeType.EVEN⟩,
       ⟨2, 4, some 1, 2, some EdgeType.EVEN⟩,
       ⟨3, 8, some 2, 3, some EdgeType.EVEN⟩,
       ⟨4, 16, some 3, 4, some EdgeType.EVEN⟩,
       ⟨5, 32, some 4, 5, some EdgeType.EVEN⟩,
       ⟨6, 5, some 4, 5, some EdgeType.ODD⟩,
       ⟨7, 64, some 5, 6, some EdgeType.EVEN⟩,
       ⟨8, 10, some 6, 6, some EdgeType.EVEN⟩,
       ⟨9, 128, some 7, 7, some EdgeType.EVEN⟩,
       ⟨10, 21, some 7, 7, some EdgeType.ODD⟩,
       ⟨11, 20, some 8, 7, some EdgeType.EVEN⟩,
       ⟨12, 3, some 8, 7, some EdgeType.ODD⟩]) ∧
    parentOk
      [⟨0, 1, none, 0, none⟩,
       ⟨1, 2, some 0, 1, some EdgeType.EVEN⟩,
       ⟨2, 4, some 1, 2, some EdgeType.EVEN⟩,
       ⟨3, 8, some 2, 3, some EdgeType.EVEN⟩,
       ⟨4, 16, some 3, 4, some EdgeType.EVEN⟩,
       ⟨5, 32, some 4, 5, some EdgeType.EVEN⟩,
       ⟨6, 5, some 4, 5, some EdgeType.ODD⟩,
       ⟨7, 64, some 5, 6, some EdgeType.EVEN⟩,
       ⟨8, 10, some 6, 6, some EdgeType.EVEN⟩,
       ⟨9, 128, some 7, 7, some EdgeType.EVEN⟩,
       ⟨10, 21, some 7, 7, some EdgeType.ODD⟩,
       ⟨11, 20, some 8, 7, some EdgeType.EVEN⟩,
       ⟨12, 3, some 8, 7, some EdgeType.ODD⟩] = true :=
  ⟨by decide, by decide,
    generate_tree_c1 20 3 (some 100) _ (by decide) (by decide)⟩

/-! ### Leading-digit frequencies (claim C4, corrected) -/

/-- The digit loop lands in `1..9` on every positive input. -/
theorem ldLoop_bounds : ∀ m : Nat, 0 < m → 1 ≤ ldLoop m ∧ ldLoop m ≤ 9 := by
  intro m
  induction m using Nat.strong_induction_on with
  | _ m ih =>
    intro hm
    rw [ldLoop]
    by_cases h10 : m < 10
    · rw [if_pos h10]
      omega
    · rw [if_neg h10]
      exact ih (m / 10) (by omega) (by omega)

/-- Nonzero integers have leading digit in `1..9`. -/
theorem leading_digit_bounds (n : Int) (hn : n ≠ 0) :
    1 ≤ leading_digit n ∧ leading_digit n ≤ 9 :=
  ldLoop_bounds n.natAbs (Int.natAbs_pos.mpr hn)

/-- A list of zeros sums to zero. -/
theorem natSum_eq_zero (l : List Nat) (h : ∀ x ∈ l, x = 0) : l.sum = 0 := by
  induction l with
  | nil => rfl
  | cons a as ih =>
    rw [List.sum_cons, h a (List.mem_cons_self _ _),
      ih (fun x hx => h x (List.mem_cons_of_mem _ hx))]

/-- Summing `c / t` over a list of naturals gives `(sum) / t`. -/
theorem listSum_div (l : List Nat) (t : ℚ) :
    (l.map (fun c : Nat => (c : ℚ) / t)).sum = ((l.sum : Nat) : ℚ) / t := by
  induction l with
  | nil => simp
  | cons a as ih =>
    simp only [List.map_cons, List.sum_cons, ih, List.sum_cons]
    push_cast
    rw [add_div]

/-- C4 counterexample: the input `[0]` is non-empty, yet the returned vector
is nine zeros whose sum is 0, not 1: the value 0 has leading digit 0, which
never contributes to the 1..9 counts. -/
theorem leading_digit_frequencies_c4_cx :
    ([(0 : Int)] ≠ []) ∧ (leading_digit_frequencies [0]).sum ≠ 1 := by
  have hld : leading_digit 0 = 0 := by
    show ldLoop (Int.natAbs 0) = 0
    rw [ldLoop]
    rfl
  have hz : (digitCounts [0]).sum = 0 := by
    refine natSum_eq_zero _ ?_
    intro x hx
    simp only [digitCounts, List.mem_map] at hx
    obtain ⟨d, hd, rfl⟩ := hx
    rw [List.countP_eq_zero]
    intro a ha
    simp only [List.mem_singleton] at ha
    subst ha
    rw [List.mem_range'] at hd
    obtain ⟨i, hi, rfl⟩ := hd
    simp [hld]
    omega
  constructor
  · simp
  · rw [leading_digit_frequencies]
    simp only [hz, if_pos]
    simp

/-- C4 (amended): `leading_digit_frequencies` always returns nine values,
each in `[0,1]`; the empty input yields nine zeros; and the values sum to 1
for every input that contains at least one nonzero integer (an input whose
elements are all 0 is non-empty yet also yields nine zeros, because the digit
0 never contributes to the counts). -/
theorem leading_digit_frequencies_c4 (numbers : List Int) :
    (leading_digit_frequencies numbers).length = 9 ∧
    (∀ x ∈ leading_digit_frequencies numbers, 0 ≤ x ∧ x ≤ 1) ∧
    leading_digit_frequencies [] = List.replicate 9 (0 : ℚ) ∧
    ((∃ x ∈ numbers, x ≠ 0) → (leading_digit_frequencies numbers).sum = 1) := by
  have hlen : (digitCounts numbers).length = 9 := by
    simp [digitCounts]
  refine ⟨?_, ?_, rfl, ?_⟩
  · rw [leading_digit_frequencies]
    by_cases hz : (digitCounts numbers).sum = 0
    · rw [if_pos hz]
      rfl
    · rw [if_neg hz]
      simp [hlen]
  · intro x hx
    rw [leading_digit_frequencies] at hx
    by_cases hz : (digitCounts numbers).sum = 0
    · rw [if_pos hz] at hx
      rw [List.eq_of_mem_replicate hx]
      norm_num
    · rw [if_neg hz] at hx
      simp only [List.mem_map] at hx
      obtain ⟨c, hc, rfl⟩ := hx
      have hle : c ≤ (digitCounts numbers).sum := List.le_sum_of_mem hc
      have hpos : (0 : ℚ) < ((digitCounts numbers).sum : ℚ) := by
        exact_mod_cast Nat.pos_of_ne_zero hz
      constructor
      · positivity
      · rw [div_le_one hpos]
        exact_mod_cast hle
  · rintro ⟨x, hxmem, hxne⟩
    have hz : (digitCounts numbers).sum ≠ 0 := by
      intro hz
      have hbounds := leading_digit_bounds x hxne
      have hdmem : numbers.countP
          (fun n => leading_digit n == leading_digit x) ∈ digitCounts numbers := by
        rw [digitCounts]
        refine List.mem_map.mpr ⟨leading_digit x, ?_, rfl⟩
        rw [List.mem_range']
        exact ⟨leading_digit x - 1, by omega, by omega⟩
      have hcpos : 0 < numbers.countP
          (fun n => leading_digit n == leading_digit x) := by
        rw [List.countP_pos_iff]
        exact ⟨x, hxmem, by simp⟩
      have := List.le_sum_of_mem hdmem
      omega
    rw [leading_digit_frequencies]
    rw [if_neg hz]
    rw [listSum_div]
    rw [div_self (by exact_mod_cast hz)]

/-- Witness for C4 at the spec's example input `[5, 50, 500]`. -/
theorem leading_digit_frequencies_c4_witness :
    (∃ x ∈ [(5 : Int), 50, 500], x ≠ 0) ∧
    (leading_digit_frequencies [5, 50, 500]).sum = 1 :=
  ⟨by decide, (leading_digit_frequencies_c4 [5, 50, 500]).2.2.2 (by decide)⟩

/-! ### The legacy module `src/Math.py` (claim C10) -/

/-- Embedding of the legacy `Math.collatz_orbit` while loop; the step formula
`3*n + 1 if n % 2 else n // 2` is written inline in that source. -/
def mathOrbitLoop : Nat → Nat → List Nat → Option (List Nat)
  | 0, n, seq => if n = 1 then some seq else none
  | fuel + 1, n, seq =>
    if n = 1 then some seq
    else mathOrbitLoop fuel (if n % 2 ≠ 0 then 3 * n + 1 else n / 2)
      (seq ++ [if n % 2 ≠ 0 then 3 * n + 1 else n / 2])

/-- Embedding of the legacy `Math.collatz_orbit` (Math.py, lines 4-13). -/
def mathCollatzOrbit (fuel : Nat) (n : Int) :
    Except String (Option (List Nat)) :=
  if n ≤ 0 then Except.error "n must be > 0"
  else Except.ok (mathOrbitLoop fuel n.toNat [n.toNat])

/-- Embedding of the legacy `Math.leading_digit` (Math.py, lines 15-17):
`int(str(abs(n))[0])` is the most significant decimal digit of `abs(n)`
(and 0 for the input 0, whose decimal string is "0"), expressed through the
little-endian digit list `Nat.digits 10`. -/
def mathLeadingDigit (n : Int) : Nat :=
  ((Nat.digits 10 n.natAbs).getLast?).getD 0

/-- The `counts` of the legacy `Math.leading_digit_frequencies`. -/
def mathDigitCounts (numbers : List Int) : List Nat :=
  (List.range' 1 9).map
    (fun d => numbers.countP (fun n => mathLeadingDigit n == d))

/-- Embedding of the legacy `Math.leading_digit_frequencies`
(Math.py, lines 20-30), structurally identical to the core function but
built on `Math.leading_digit`. -/
def mathLeadingDigitFrequencies (numbers : List Int) : List ℚ :=
  let counts := mathDigitCounts numbers
  let total := counts.sum
  if total = 0 then List.replicate 9 (0 : ℚ)
  else counts.map (fun c : Nat => (c : ℚ) / (total : ℚ))

/-- The most significant decimal digit computed through `Nat.digits` agrees
with the core module's division loop. -/
theorem digitsLast_eq_ldLoop :
    ∀ m : Nat, ((Nat.digits 10 m).getLast?).getD 0 = ldLoop m := by
  intro m
  induction m using Nat.strong_induction_on with
  | _ m ih =>
    by_cases h0 : m = 0
    · subst h0
      rw [ldLoop]
      simp
    · have hm : 0 < m := Nat.pos_of_ne_zero h0
      rw [Nat.digits_def' (by norm_num : (1 : Nat) < 10) hm]
      by_cases h10 : m < 10
      · have hq : m / 10 = 0 := by omega
        rw [hq, Nat.digits_zero, ldLoop, if_pos h10]
        simp
        omega
      · have hne : Nat.digits 10 (m / 10) ≠ [] :=
          Nat.digits_ne_nil_iff_ne_zero.mpr (by omega)
        obtain ⟨b, t, hbt⟩ := List.exists_cons_of_ne_nil hne
        rw [hbt, List.getLast?_cons_cons, ← hbt, ih (m / 10) (by omega)]
        conv_rhs => rw [ldLoop]
        rw [if_neg h10]

/-- Legacy and core leading digit agree on every integer. -/
theorem mathLeadingDigit_eq (n : Int) : mathLeadingDigit n = leading_digit n :=
  digitsLast_eq_ldLoop n.natAbs

/-- The two orbit loops compute identically. -/
theorem mathOrbitLoop_eq (fuel : Nat) :
    ∀ (n : Nat) (seq : List Nat), mathOrbitLoop fuel n seq = orbit_loop fuel n seq := by
  induction fuel with
  | zero => intro n seq; rfl
  | succ f ih =>
    intro n seq
    simp only [mathOrbitLoop, orbit_loop, step]
    by_cases h1 : n = 1
    · rw [if_pos h1, if_pos h1]
    · rw [if_neg h1, if_neg h1]
      exact ih _ _

/-- C10: the legacy module and the core module are extensionally equivalent on
their shared operations: leading digit (all integers), full orbit computation
(all fuels and integer inputs, hence wherever either terminates), and the
leading-digit frequency vector (all finite integer lists). -/
theorem legacy_equiv_c10 :
    (∀ n : Int, mathLeadingDigit n = leading_digit n) ∧
    (∀ (fuel : Nat) (n : Int), mathCollatzOrbit fuel n = collatz_orbit fuel n) ∧
    (∀ numbers : List Int,
      mathLeadingDigitFrequencies numbers = leading_digit_frequencies numbers) := by
  have hld : mathLeadingDigit = leading_digit := funext mathLeadingDigit_eq
  refine ⟨mathLeadingDigit_eq, ?_, ?_⟩
  · intro fuel n
    unfold mathCollatzOrbit collatz_orbit
    by_cases h : n ≤ 0
    · rw [if_pos h, if_pos h]
    · rw [if_neg h, if_neg h, mathOrbitLoop_eq]
  · intro numbers
    unfold mathLeadingDigitFrequencies leading_digit_frequencies
      mathDigitCounts digitCounts
    rw [hld]

/-! ### The tree layout engine `map_top_down_tree` (claim C7)

Embedding of `map_top_down_tree` (collatz_math.py, lines 268-357).  The
recursive Python `dfs` carries mutable `visited` / `x_coord` / `y_coord` /
`next_x`; here the state is explicit and the recursion is fuel-indexed
(`none` = the recursion nest is deeper than `fuel`, which cannot happen in a
real run on a well-formed node list, as proved below).  Coordinate maps are
association lists consed once per node (each node is assigned exactly once,
guarded by `visited`); `x_coord[k]` reads are modelled with a default that is
never reached on well-formed input. -/

/-- The sort key rank of `child_sort_key`: `EVEN` edges first
(`c.parent_edge_type.name.startswith("EVEN")`), `None` also ranks 0. -/
def edgeRank : Option EdgeType → Nat
  | some EdgeType.ODD => 1
  | _ => 0

/-- The full `child_sort_key` ordering: by edge rank, then value, then id. -/
def childLE (a b : Node) : Prop :=
  edgeRank a.parent_edge_type < edgeRank b.parent_edge_type ∨
  (edgeRank a.parent_edge_type = edgeRank b.parent_edge_type ∧
    (a.value < b.value ∨ (a.value = b.value ∧ a.id ≤ b.id)))

instance : DecidableRel childLE := fun a b => by
  unfold childLE
  infer_instance

/-- The sorted children-id list of a parent id: the `children` dict entry
after step 2's sort (the id tie-break makes the key total and injective, so
any stable sort returns this unique order). -/
def childIds (nodes : List Node) (pid : Nat) : List Nat :=
  (List.insertionSort childLE
    (nodes.filter (fun n => n.parent_id == some pid))).map Node.id

/-- `nodes[u_id].depth` (total, with an unreachable default). -/
def depthOf (nodes : List Node) (uId : Nat) : Nat :=
  (nodes[uId]?.map Node.depth).getD 0

/-- The mutable state of the Python `dfs` closure. -/
structure LayoutState where
  visited : List Nat
  xc : List (Nat × ℚ)
  yc : List (Nat × ℚ)
  nextX : ℚ

mutual

/-- The recursive `dfs`: skip visited nodes, recurse into sorted children,
assign `y = depth * y_spacing`, then either take the next x-slot (leaf) or
the mean of the children's x (internal node). -/
def dfsLayout (nodes : List Node) (xs ys : ℚ) :
    Nat → LayoutState → Nat → Option LayoutState
  | 0, _, _ => none
  | fuel + 1, st, uId =>
    if uId ∈ st.visited then some st
    else
      match dfsChildren nodes xs ys fuel (childIds nodes uId)
        ⟨uId :: st.visited, st.xc, st.yc, st.nextX⟩ with
      | none => none
      | some st1 =>
        if childIds nodes uId = [] then
          some ⟨st1.visited, (uId, st1.nextX) :: st1.xc,
            (uId, (depthOf nodes uId : ℚ) * ys) :: st1.yc, st1.nextX + xs⟩
        else
          some ⟨st1.visited,
            (uId, ((childIds nodes uId).map
              (fun k => ((st1.xc.lookup k).getD 0))).sum /
              (((childIds nodes uId).map
                (fun k => ((st1.xc.lookup k).getD 0))).length : ℚ)) :: st1.xc,
            (uId, (depthOf nodes uId : ℚ) * ys) :: st1.yc, st1.nextX⟩
termination_by fuel _ _ => (fuel, 0)

/-- The `for v_id in children.get(u_id, []): dfs(v_id)` loop. -/
def dfsChildren (nodes : List Node) (xs ys : ℚ) :
    Nat → List Nat → LayoutState → Option LayoutState
  | _, [], st => some st
  | fuel, v :: vs, st =>
    match dfsLayout nodes xs ys fuel st v with
    | none => none
    | some st2 => dfsChildren nodes xs ys fuel vs st2
termination_by fuel ids _ => (fuel, ids.length + 1)

end

mutual

/-- The traversal order of the same `dfs`, recorded abstractly: the post-order
sequence of the nodes first visited by `dfs(uId)` (used to state claim C7's
slots-in-post-order property). -/
def postOrder (nodes : List Node) :
    Nat → List Nat → Nat → Option (List Nat × List Nat)
  | 0, _, _ => none
  | fuel + 1, vis, uId =>
    if uId ∈ vis then some (vis, [])
    else
      match postOrderChildren nodes fuel (childIds nodes uId) (uId :: vis) with
      | none => none
      | some (vis2, seq) => some (vis2, seq ++ [uId])
termination_by fuel _ _ => (fuel, 0)

def postOrderChildren (nodes : List Node) :
    Nat → List Nat → List Nat → Option (List Nat × List Nat)
  | _, [], vis => some (vis, [])
  | fuel, v :: vs, vis =>
    match postOrder nodes fuel vis v with
    | none => none
    | some (vis2, s1) =>
      match postOrderChildren nodes fuel vs vis2 with
      | none => none
      | some (vis3, s2) => some (vis3, s1 ++ s2)
termination_by fuel ids _ => (fuel, ids.length + 1)

end

/-- The root scan `for n in nodes: if n.parent_id is None: root_id = n.id`
(last one wins), with the defensive fallback `root_id = 0`. -/
def rootIdOf (nodes : List Node) : Nat :=
  match (nodes.filter (fun n => n.parent_id == none)).getLast? with
  | some n => n.id
  | none => 0

/-- The defensive `for n in nodes: if n.id not in visited: dfs(n.id)` pass. -/
def fallbackLoop (nodes : List Node) (xs ys : ℚ) (fuel : Nat) :
    List Node → LayoutState → Option LayoutState
  | [], st => some st
  | n :: rest, st =>
    if n.id ∈ st.visited then fallbackLoop nodes xs ys fuel rest st
    else
      match dfsLayout nodes xs ys fuel st n.id with
      | none => none
      | some st2 => fallbackLoop nodes xs ys fuel rest st2

/-- Embedding of `map_top_down_tree`: empty input gives the empty map;
otherwise run `dfs` from the root, then the defensive pass, and return
`{nid: (x, y) for nid in x_coord}`. -/
def map_top_down_tree (fuel : Nat) (nodes : List Node) (xs ys : ℚ) :
    Option (List (Nat × ℚ × ℚ)) :=
  if nodes = [] then some []
  else
    match dfsLayout nodes xs ys fuel ⟨[], [], [], 0⟩ (rootIdOf nodes) with
    | none => none
    | some st1 =>
      match fallbackLoop nodes xs ys fuel nodes st1 with
      | none => none
      | some st2 =>
        some (st2.xc.map (fun p => (p.1, p.2, (st2.yc.lookup p.1).getD 0)))

/-- Well-formedness of a node list, as assumed by claim C7: non-empty, ids
equal to list positions, parents strictly earlier, and a unique root. -/
def wf (nodes : List Node) : Bool :=
  decide (nodes ≠ []) &&
  (List.range nodes.length).all (fun i =>
    match nodes[i]? with
    | none => false
    | some n =>
      (n.id == i) &&
      (match n.parent_id with
       | none => true
       | some p => decide (p < i))) &&
  (nodes.countP (fun n => n.parent_id == none) == 1)

/-! #### Association-list helpers -/

/-- Lookup after consing the same key. -/
theorem lookup_cons_self {β : Type} (l : List (Nat × β)) (k : Nat) (x : β) :
    ((k, x) :: l).lookup k = some x := by
  simp [List.lookup_cons]

/-- Lookup after consing a different key. -/
theorem lookup_cons_ne {β : Type} (l : List (Nat × β)) (k a : Nat) (x : β)
    (h : k ≠ a) : ((a, x) :: l).lookup k = l.lookup k := by
  simp [List.lookup_cons, beq_eq_false_iff_ne.mpr h]

/-- Lookup skips a prefix that does not contain the key. -/
theorem lookup_append_not_mem {β : Type} (l₁ l₂ : List (Nat × β)) (k : Nat)
    (h : k ∉ l₁.map Prod.fst) : (l₁ ++ l₂).lookup k = l₂.lookup k := by
  induction l₁ with
  | nil => rfl
  | cons a as ih =>
    obtain ⟨a1, a2⟩ := a
    simp only [List.map_cons, List.mem_cons, not_or] at h
    rw [List.cons_append, lookup_cons_ne _ _ _ _ h.1]
    exact ih h.2

/-- A key has a binding exactly when it occurs among the keys. -/
theorem lookup_isSome_iff_mem {β : Type} (l : List (Nat × β)) (k : Nat) :
    (l.lookup k).isSome = true ↔ k ∈ l.map Prod.fst := by
  induction l with
  | nil => simp
  | cons a as ih =>
    obtain ⟨a1, a2⟩ := a
    by_cases h : k = a1
    · subst h
      rw [lookup_cons_self]
      simp
    · rw [lookup_cons_ne _ _ _ _ h]
      simp only [List.map_cons, List.mem_cons, h, false_or]
      exact ih

/-- Lookup through the final `{nid: (x, y)}` construction of the layout. -/
theorem lookup_map_snd {β : Type} (l : List (Nat × β)) (g : Nat → β) (k : Nat) :
    (l.map (fun p => (p.1, p.2, g p.1))).lookup k =
      (l.lookup k).map (fun x => (x, g k)) := by
  induction l with
  | nil => simp
  | cons a as ih =>
    obtain ⟨a1, a2⟩ := a
    by_cases h : k = a1
    · subst h
      rw [List.map_cons, lookup_cons_self, lookup_cons_self]
      rfl
    · rw [List.map_cons, lookup_cons_ne _ _ _ _ h, lookup_cons_ne _ _ _ _ h, ih]

/-! #### Ancestor chains on well-formed node lists -/

/-- `descends nodes v u`: following parent links upward from `v` (which
strictly decrease the index — guaranteed by claim C7's well-formedness and
enforced here by the guard) reaches `u`. -/
def descends (nodes : List Node) (v u : Nat) : Bool :=
  if v = u then true
  else
    match nodes[v]? with
    | none => false
    | some n =>
      match n.parent_id with
      | none => false
      | some p => if h : p < v then descends nodes p u else false
termination_by v
decreasing_by exact h

theorem descends_self (nodes : List Node) (v : Nat) :
    descends nodes v v = true := by
  rw [descends]
  simp

theorem descends_of_parent (nodes : List Node) {w u p : Nat} {n : Node}
    (hv : nodes[w]? = some n) (hp : n.parent_id = some p) (hlt : p < w)
    (hd : descends nodes p u = true) : descends nodes w u = true := by
  by_cases hwu : w = u
  · subst hwu
    exact descends_self nodes w
  · rw [descends, if_neg hwu]
    simp only [hv, hp]
    rw [dif_pos hlt]
    exact hd

theorem descends_le (nodes : List Node) :
    ∀ v u, descends nodes v u = true → u ≤ v := by
  intro v
  induction v using Nat.strong_induction_on with
  | _ v ih =>
    intro u hd
    rw [descends] at hd
    by_cases hvu : v = u
    · omega
    · rw [if_neg hvu] at hd
      cases hv : nodes[v]? with
      | none => simp [hv] at hd
      | some n =>
        simp only [hv] at hd
        cases hp : n.parent_id with
        | none => simp [hp] at hd
        | some p =>
          simp only [hp] at hd
          by_cases hlt : p < v
          · rw [dif_pos hlt] at hd
            have := ih p hlt u hd
            omega
          · rw [dif_neg hlt] at hd
            cases hd

theorem descends_trans (nodes : List Node) :
    ∀ w v u, descends nodes w v = true → descends nodes v u = true →
      descends nodes w u = true := by
  intro w
  induction w using Nat.strong_induction_on with
  | _ w ih =>
    intro v u hwv hvu
    by_cases hwveq : w = v
    · subst hwveq
      exact hvu
    · rw [descends, if_neg hwveq] at hwv
      cases hv : nodes[w]? with
      | none => simp [hv] at hwv
      | some n =>
        simp only [hv] at hwv
        cases hp : n.parent_id with
        | none => simp [hp] at hwv
        | some p =>
          simp only [hp] at hwv
          by_cases hlt : p < w
          · rw [dif_pos hlt] at hwv
            exact descends_of_parent nodes hv hp hlt (ih p hlt v u hwv hvu)
          · rw [dif_neg hlt] at hwv
            cases hwv

theorem descends_total (nodes : List Node) :
    ∀ w a b, descends nodes w a = true → descends nodes w b = true →
      descends nodes a b = true ∨ descends nodes b a = true := by
  intro w
  induction w using Nat.strong_induction_on with
  | _ w ih =>
    intro a b ha hb
    by_cases hwa : w = a
    · subst hwa
      exact Or.inl hb
    · by_cases hwb : w = b
      · subst hwb
        exact Or.inr ha
      · rw [descends, if_neg hwa] at ha
        rw [descends, if_neg hwb] at hb
        cases hv : nodes[w]? with
        | none => simp [hv] at ha
        | some n =>
          simp only [hv] at ha hb
          cases hp : n.parent_id with
          | none => simp [hp] at ha
          | some p =>
            simp only [hp] at ha hb
            by_cases hlt : p < w
            · rw [dif_pos hlt] at ha hb
              exact ih p hlt a b ha hb
            · rw [dif_neg hlt] at ha
              cases ha

/-! #### Well-formedness projections -/

theorem wf_ne_nil {nodes : List Node} (h : wf nodes = true) : nodes ≠ [] := by
  unfold wf at h
  simp only [Bool.and_eq_true, decide_eq_true_eq] at h
  exact h.1.1

theorem wf_node_facts {nodes : List Node} (h : wf nodes = true) :
    ∀ (i : Nat) (n : Node), nodes[i]? = some n →
      n.id = i ∧ (∀ p, n.parent_id = some p → p < i) := by
  unfold wf at h
  simp only [Bool.and_eq_true, decide_eq_true_eq, List.all_eq_true] at h
  intro i n hget
  have hi : i < nodes.length := by
    by_contra hge
    rw [List.getElem?_eq_none (by omega)] at hget
    cases hget
  have := h.1.2 i (List.mem_range.mpr hi)
  simp only [hget, Bool.and_eq_true, beq_iff_eq] at this
  refine ⟨this.1, ?_⟩
  intro p hp
  have h2 := this.2
  simp only [hp, decide_eq_true_eq] at h2
  exact h2

theorem wf_root_count {nodes : List Node} (h : wf nodes = true) :
    nodes.countP (fun n => n.parent_id == none) = 1 := by
  unfold wf at h
  simp only [Bool.and_eq_true, beq_iff_eq] at h
  exact h.2

/-- Under well-formedness, each member is found at the position its id names. -/
theorem wf_mem_getElem {nodes : List Node} (h : wf nodes = true) :
    ∀ n ∈ nodes, nodes[n.id]? = some n := by
  intro n hn
  obtain ⟨i, hi, hget⟩ := List.getElem_of_mem hn
  have hsome : nodes[i]? = some n := by
    rw [List.getElem?_eq_getElem hi, hget]
  have hid := (wf_node_facts h i n hsome).1
  rw [hid]
  exact hsome

/-- Membership in the sorted children-id list, characterized by lookup. -/
theorem mem_childIds {nodes : List Node} (h : wf nodes = true) (u v : Nat) :
    v ∈ childIds nodes u ↔
      ∃ n : Node, nodes[v]? = some n ∧ n.parent_id = some u := by
  unfold childIds
  constructor
  · intro hv
    rw [List.mem_map] at hv
    obtain ⟨n, hn, hid⟩ := hv
    have hn' : n ∈ nodes.filter (fun n => n.parent_id == some u) :=
      (List.perm_insertionSort childLE _).mem_iff.mp hn
    rw [List.mem_filter] at hn'
    obtain ⟨hmem, hpar⟩ := hn'
    have hget := wf_mem_getElem h n hmem
    subst hid
    exact ⟨n, hget, by simpa using hpar⟩
  · rintro ⟨n, hget, hpar⟩
    have hid := (wf_node_facts h v n hget).1
    refine List.mem_map.mpr ⟨n, ?_, hid⟩
    refine (List.perm_insertionSort childLE _).mem_iff.mpr ?_
    rw [List.mem_filter]
    exact ⟨List.getElem?_mem hget, by simp [hpar]⟩

/-- A child id is strictly larger than its parent id and in range. -/
theorem childIds_lt {nodes : List Node} (h : wf nodes = true) (u v : Nat)
    (hv : v ∈ childIds nodes u) : u < v ∧ v < nodes.length := by
  obtain ⟨n, hget, hpar⟩ := (mem_childIds h u v).mp hv
  refine ⟨(wf_node_facts h v n hget).2 u hpar, ?_⟩
  by_contra hge
  rw [List.getElem?_eq_none (by omega)] at hget
  cases hget

/-- A child descends from its parent. -/
theorem childIds_descends {nodes : List Node} (h : wf nodes = true)
    (u v : Nat) (hv : v ∈ childIds nodes u) : descends nodes v u = true := by
  obtain ⟨n, hget, hpar⟩ := (mem_childIds h u v).mp hv
  exact descends_of_parent nodes hget hpar
    ((wf_node_facts h v n hget).2 u hpar) (descends_self nodes u)

/-- The root scan finds the unique parentless node. -/
theorem rootId_spec {nodes : List Node} (h : wf nodes = true) :
    ∃ r : Node, nodes[rootIdOf nodes]? = some r ∧ r.parent_id = none ∧
      (∀ (i : Nat) (n : Node), nodes[i]? = some n → n.parent_id = none →
        i = rootIdOf nodes) := by
  have hcount := wf_root_count h
  rw [List.countP_eq_length_filter] at hcount
  obtain ⟨r, hfil⟩ : ∃ r,
      nodes.filter (fun n => n.parent_id == none) = [r] := by
    cases hf : nodes.filter (fun n => n.parent_id == none) with
    | nil => rw [hf] at hcount; cases hcount
    | cons a as =>
      rw [hf] at hcount
      simp only [List.length_cons] at hcount
      have : as = [] := by
        cases as with
        | nil => rfl
        | cons b bs => simp at hcount
      subst this
      exact ⟨a, rfl⟩
  have hrmem : r ∈ nodes := by
    have : r ∈ nodes.filter (fun n => n.parent_id == none) := by
      rw [hfil]
      exact List.mem_singleton.mpr rfl
    exact (List.mem_filter.mp this).1
  have hrnone : r.parent_id = none := by
    have : r ∈ nodes.filter (fun n => n.parent_id == none) := by
      rw [hfil]
      exact List.mem_singleton.mpr rfl
    simpa using (List.mem_filter.mp this).2
  have hrid : rootIdOf nodes = r.id := by
    unfold rootIdOf
    rw [hfil]
    rfl
  refine ⟨r, ?_, hrnone, ?_⟩
  · rw [hrid]
    exact wf_mem_getElem h r hrmem
  · intro i n hget hnone
    have hnmem : n ∈ nodes.filter (fun n => n.parent_id == none) := by
      rw [List.mem_filter]
      exact ⟨List.getElem?_mem hget, by simp [hnone]⟩
    rw [hfil, List.mem_singleton] at hnmem
    subst hnmem
    rw [hrid, ← (wf_node_facts h i n hget).1]

/-- Every valid index descends from the scanned root. -/
theorem all_descend_root {nodes : List Node} (h : wf nodes = true) :
    ∀ v, v < nodes.length → descends nodes v (rootIdOf nodes) = true := by
  intro v
  induction v using Nat.strong_induction_on with
  | _ v ih =>
    intro hv
    obtain ⟨n, hsome⟩ : ∃ n : Node, nodes[v]? = some n := by
      cases hg : nodes[v]? with
      | none =>
        rw [List.getElem?_eq_none_iff] at hg
        omega
      | some n => exact ⟨n, rfl⟩
    cases hp : n.parent_id with
    | none =>
      obtain ⟨r, _, _, huniq⟩ := rootId_spec h
      have hvr := huniq v n hsome hp
      rw [hvr]
      exact descends_self nodes (rootIdOf nodes)
    | some p =>
      have hlt := (wf_node_facts h v n hsome).2 p hp
      exact descends_of_parent nodes hsome hp hlt (ih p hlt (by omega))

/-- Distinct children of the same parent have disjoint descendant sets. -/
theorem siblings_disjoint {nodes : List Node} (h : wf nodes = true)
    {u c1 c2 : Nat} (h1 : c1 ∈ childIds nodes u) (h2 : c2 ∈ childIds nodes u)
    (hne : c1 ≠ c2) (w : Nat) (hw1 : descends nodes w c1 = true)
    (hw2 : descends nodes w c2 = true) : False := by
  have key : ∀ a b : Nat, a ∈ childIds nodes u → b ∈ childIds nodes u →
      a ≠ b → descends nodes a b = true → False := by
    intro a b ha hb hab hd
    obtain ⟨n1, hg1, hp1⟩ := (mem_childIds h u a).mp ha
    have hlt1 : u < a := (wf_node_facts h a n1 hg1).2 u hp1
    rw [descends, if_neg hab] at hd
    simp only [hg1, hp1] at hd
    rw [dif_pos hlt1] at hd
    have hle := descends_le nodes u b hd
    have hlt2 : u < b := (childIds_lt h u b hb).1
    omega
  rcases descends_total nodes w c1 c2 hw1 hw2 with hd | hd
  · exact key c1 c2 h1 h2 hne hd
  · exact key c2 c1 h2 h1 (Ne.symm hne) hd

/-- A strict descendant reaches its ancestor through one of the children. -/
theorem descends_to_child {nodes : List Node} (h : wf nodes = true) :
    ∀ w u, descends nodes w u = true → w ≠ u →
      ∃ v ∈ childIds nodes u, descends nodes w v = true := by
  intro w
  induction w using Nat.strong_induction_on with
  | _ w ih =>
    intro u hd hne
    rw [descends, if_neg hne] at hd
    cases hw : nodes[w]? with
    | none => simp [hw] at hd
    | some n =>
      simp only [hw] at hd
      cases hp : n.parent_id with
      | none => simp [hp] at hd
      | some p =>
        simp only [hp] at hd
        have hlt : p < w := (wf_node_facts h w n hw).2 p hp
        rw [dif_pos hlt] at hd
        by_cases hpu : p = u
        · refine ⟨w, ?_, descends_self nodes w⟩
          rw [mem_childIds h]
          exact ⟨n, hw, by rw [hp, hpu]⟩
        · obtain ⟨v, hvmem, hvd⟩ := ih p hlt u hd hpu
          exact ⟨v, hvmem, descends_of_parent nodes hw hp hlt hvd⟩

/-! #### DFS state invariants -/

/-- Coordinate keys are always visited nodes. -/
def stInv (st : LayoutState) : Prop :=
  (∀ k ∈ st.xc.map Prod.fst, k ∈ st.visited) ∧
  (∀ k ∈ st.yc.map Prod.fst, k ∈ st.visited)

/-- A DFS call only extends the state: visited grows, and coordinates are
added only for ids that were not yet visited (so no binding is shadowed). -/
def ext (st st' : LayoutState) : Prop :=
  (∃ nv : List Nat, st'.visited = nv ++ st.visited) ∧
  (∃ nx : List (Nat × ℚ), st'.xc = nx ++ st.xc ∧
    ∀ k ∈ nx.map Prod.fst, k ∉ st.visited) ∧
  (∃ ny : List (Nat × ℚ), st'.yc = ny ++ st.yc ∧
    ∀ k ∈ ny.map Prod.fst, k ∉ st.visited)

theorem ext_refl (st : LayoutState) : ext st st :=
  ⟨⟨[], rfl⟩, ⟨[], rfl, by simp⟩, ⟨[], rfl, by simp⟩⟩

theorem ext_visited_subset {st st' : LayoutState} (h : ext st st') :
    st.visited ⊆ st'.visited := by
  obtain ⟨⟨nv, hv⟩, _, _⟩ := h
  rw [hv]
  exact List.subset_append_right _ _

theorem ext_trans {s1 s2 s3 : LayoutState} (h12 : ext s1 s2)
    (h23 : ext s2 s3) : ext s1 s3 := by
  obtain ⟨⟨nv1, hv1⟩, ⟨nx1, hx1, hxk1⟩, ⟨ny1, hy1, hyk1⟩⟩ := h12
  obtain ⟨⟨nv2, hv2⟩, ⟨nx2, hx2, hxk2⟩, ⟨ny2, hy2, hyk2⟩⟩ := h23
  refine ⟨⟨nv2 ++ nv1, by rw [hv2, hv1, List.append_assoc]⟩,
    ⟨nx2 ++ nx1, by rw [hx2, hx1, List.append_assoc], ?_⟩,
    ⟨ny2 ++ ny1, by rw [hy2, hy1, List.append_assoc], ?_⟩⟩
  · intro k hk
    rw [List.map_append, List.mem_append] at hk
    rcases hk with hk | hk
    · intro hmem
      exact hxk2 k hk (by rw [hv1]; exact List.mem_append_right _ hmem)
    · exact hxk1 k hk
  · intro k hk
    rw [List.map_append, List.mem_append] at hk
    rcases hk with hk | hk
    · intro hmem
      exact hyk2 k hk (by rw [hv1]; exact List.mem_append_right _ hmem)
    · exact hyk1 k hk

/-- An x-binding of a visited key survives any extension. -/
theorem lookup_persist_x {s1 s2 : LayoutState} (hi : stInv s1)
    (he : ext s1 s2) {k : Nat} {x : ℚ} (hl : s1.xc.lookup k = some x) :
    s2.xc.lookup k = some x := by
  obtain ⟨_, ⟨nx, hx, hxk⟩, _⟩ := he
  have hmem : k ∈ s1.xc.map Prod.fst :=
    (lookup_isSome_iff_mem _ _).mp (by rw [hl]; rfl)
  have hvis : k ∈ s1.visited := hi.1 k hmem
  rw [hx, lookup_append_not_mem _ _ _ (fun hk => hxk k hk hvis)]
  exact hl

/-- A y-binding of a visited key survives any extension. -/
theorem lookup_persist_y {s1 s2 : LayoutState} (hi : stInv s1)
    (he : ext s1 s2) {k : Nat} {y : ℚ} (hl : s1.yc.lookup k = some y) :
    s2.yc.lookup k = some y := by
  obtain ⟨_, _, ⟨ny, hy, hyk⟩⟩ := he
  have hmem : k ∈ s1.yc.map Prod.fst :=
    (lookup_isSome_iff_mem _ _).mp (by rw [hl]; rfl)
  have hvis : k ∈ s1.visited := hi.2 k hmem
  rw [hy, lookup_append_not_mem _ _ _ (fun hk => hyk k hk hvis)]
  exact hl

/-- Consing a fresh key preserves existing bindings. -/
theorem lookup_cons_of_some {β : Type} {l : List (Nat × β)} {k a : Nat}
    {x : β} {v : β} (hl : l.lookup k = some x) (ha : a ∉ l.map Prod.fst) :
    ((a, v) :: l).lookup k = some x := by
  have hk : k ∈ l.map Prod.fst :=
    (lookup_isSome_iff_mem _ _).mp (by rw [hl]; rfl)
  have : k ≠ a := fun he => ha (he ▸ hk)
  rw [lookup_cons_ne _ _ _ _ this]
  exact hl

/-- What one `dfs` call guarantees, stated relative to its entry state `st`,
exit state `st'`, and the post-order sequence `po` of the nodes it assigned:
`po` lists exactly the newly visited ids without duplicates; every assigned
node got `y = depth * y_spacing`; its leaves got the consecutive x-slots
starting at `st.nextX`, in `po` order; every assigned internal node got the
arithmetic mean of its children's x; and every assigned node has an x. -/
def layoutSpec (nodes : List Node) (xs ys : ℚ) (st st' : LayoutState)
    (po : List Nat) : Prop :=
  po.Nodup ∧
  (∀ w, w ∈ po ↔ (w ∉ st.visited ∧ w ∈ st'.visited)) ∧
  (∀ w ∈ po, st'.yc.lookup w = some ((depthOf nodes w : ℚ) * ys)) ∧
  st'.nextX = st.nextX +
    ((po.filter (fun v => childIds nodes v = [])).length : ℚ) * xs ∧
  (∀ (i : Nat) (hi : i < (po.filter (fun v => childIds nodes v = [])).length),
    st'.xc.lookup ((po.filter (fun v => childIds nodes v = [])).get ⟨i, hi⟩) =
      some (st.nextX + (i : ℚ) * xs)) ∧
  (∀ w ∈ po, childIds nodes w ≠ [] →
    (∀ k ∈ childIds nodes w, (st'.xc.lookup k).isSome = true) ∧
    st'.xc.lookup w = some
      (((childIds nodes w).map (fun k => ((st'.xc.lookup k).getD 0))).sum /
        (((childIds nodes w).map
          (fun k => ((st'.xc.lookup k).getD 0))).length : ℚ))) ∧
  (∀ w ∈ po, (st'.xc.lookup w).isSome = true)

/-- The guarantee of one `dfs(uId)` call at a given fuel. -/
def dfsP (nodes : List Node) (xs ys : ℚ) (fuel : Nat) : Prop :=
  ∀ (st : LayoutState) (uId : Nat),
    uId < nodes.length →
    nodes.length - uId < fuel →
    stInv st →
    (uId ∉ st.visited → ∀ w, descends nodes w uId = true → w ∉ st.visited) →
    ∃ (st' : LayoutState) (po : List Nat),
      dfsLayout nodes xs ys fuel st uId = some st' ∧
      postOrder nodes fuel st.visited uId = some (st'.visited, po) ∧
      ext st st' ∧ stInv st' ∧
      layoutSpec nodes xs ys st st' po ∧
      (∀ w, w ∈ st'.visited ↔ w ∈ st.visited ∨
        (uId ∉ st.visited ∧ descends nodes w uId = true))

/-- The guarantee of the loop over a (duplicate-free, pairwise subtree-
disjoint, entirely fresh) children list at a given fuel. -/
def dfsQ (nodes : List Node) (xs ys : ℚ) (fuel : Nat) : Prop :=
  ∀ (ids : List Nat) (st : LayoutState),
    ids.Nodup →
    (∀ v ∈ ids, v < nodes.length ∧ nodes.length - v < fuel) →
    stInv st →
    (∀ v ∈ ids, ∀ w, descends nodes w v = true → w ∉ st.visited) →
    (∀ v1 ∈ ids, ∀ v2 ∈ ids, v1 ≠ v2 → ∀ w,
      ¬(descends nodes w v1 = true ∧ descends nodes w v2 = true)) →
    ∃ (st' : LayoutState) (po : List Nat),
      dfsChildren nodes xs ys fuel ids st = some st' ∧
      postOrderChildren nodes fuel ids st.visited = some (st'.visited, po) ∧
      ext st st' ∧ stInv st' ∧
      layoutSpec nodes xs ys st st' po ∧
      (∀ w, w ∈ st'.visited ↔ w ∈ st.visited ∨
        ∃ v ∈ ids, descends nodes w v = true)

/-- The empty run satisfies the spec. -/
theorem layoutSpec_nil (nodes : List Node) (xs ys : ℚ) (st : LayoutState) :
    layoutSpec nodes xs ys st st [] := by
  refine ⟨List.nodup_nil, ?_, ?_, ?_, ?_, ?_, ?_⟩
  · intro w
    simp only [List.not_mem_nil, false_iff, not_and]
    intro hw hv
    exact absurd hv hw
  · intro w hw
    cases hw
  · simp
  · intro i hi
    simp at hi
  · intro w hw
    cases hw
  · intro w hw
    cases hw

/-- Sequential composition of two run specs. -/
theorem layoutSpec_append {nodes : List Node} {xs ys : ℚ}
    {s0 s1 s2 : LayoutState} {po1 po2 : List Nat}
    (h1 : layoutSpec nodes xs ys s0 s1 po1)
    (h2 : layoutSpec nodes xs ys s1 s2 po2)
    (he1 : ext s0 s1) (he2 : ext s1 s2) (hi1 : stInv s1) :
    layoutSpec nodes xs ys s0 s2 (po1 ++ po2) := by
  obtain ⟨hnd1, hiff1, hy1, hnx1, hslot1, hmean1, hcov1⟩ := h1
  obtain ⟨hnd2, hiff2, hy2, hnx2, hslot2, hmean2, hcov2⟩ := h2
  have hsub01 := ext_visited_subset he1
  have hsub12 := ext_visited_subset he2
  have hpersist : ∀ w ∈ po1, ∀ x : ℚ, s1.xc.lookup w = some x →
      s2.xc.lookup w = some x := fun w _ x hx => lookup_persist_x hi1 he2 hx
  refine ⟨?_, ?_, ?_, ?_, ?_, ?_, ?_⟩
  · rw [List.nodup_append]
    refine ⟨hnd1, hnd2, ?_⟩
    intro w hw1 hw2
    exact ((hiff2 w).mp hw2).1 (((hiff1 w).mp hw1).2)
  · intro w
    rw [List.mem_append]
    constructor
    · rintro (hw | hw)
      · obtain ⟨hnv, hv⟩ := (hiff1 w).mp hw
        exact ⟨hnv, hsub12 hv⟩
      · obtain ⟨hnv, hv⟩ := (hiff2 w).mp hw
        exact ⟨fun hmem => hnv (hsub01 hmem), hv⟩
    · rintro ⟨hnv, hv⟩
      by_cases hw1 : w ∈ s1.visited
      · exact Or.inl ((hiff1 w).mpr ⟨hnv, hw1⟩)
      · exact Or.inr ((hiff2 w).mpr ⟨hw1, hv⟩)
  · intro w hw
    rw [List.mem_append] at hw
    rcases hw with hw | hw
    · exact lookup_persist_y hi1 he2 (hy1 w hw)
    · exact hy2 w hw
  · rw [List.filter_append, List.length_append]
    rw [hnx2, hnx1]
    push_cast
    ring
  · intro i hi
    have hfa : (po1 ++ po2).filter (fun v => childIds nodes v = []) =
        po1.filter (fun v => childIds nodes v = []) ++
        po2.filter (fun v => childIds nodes v = []) := List.filter_append _ _
    have hibig : i < (po1.filter (fun v => childIds nodes v = []) ++
        po2.filter (fun v => childIds nodes v = [])).length := by
      rw [← hfa]
      exact hi
    have hget0 : ((po1 ++ po2).filter (fun v => childIds nodes v = [])).get
        ⟨i, hi⟩ =
        (po1.filter (fun v => childIds nodes v = []) ++
          po2.filter (fun v => childIds nodes v = [])).get ⟨i, hibig⟩ := by
      simp only [List.get_eq_getElem]
      exact List.getElem_of_eq hfa hi
    rw [hget0]
    have hilt : i < (po1.filter (fun v => childIds nodes v = [])).length +
        (po2.filter (fun v => childIds nodes v = [])).length := by
      rw [← List.length_append]
      exact hibig
    by_cases hi1' : i < (po1.filter (fun v => childIds nodes v = [])).length
    · have hgl : (po1.filter (fun v => childIds nodes v = []) ++
          po2.filter (fun v => childIds nodes v = [])).get ⟨i, hibig⟩ =
          (po1.filter (fun v => childIds nodes v = [])).get ⟨i, hi1'⟩ := by
        simp only [List.get_eq_getElem]
        exact List.getElem_append_left hi1'
      rw [hgl]
      exact lookup_persist_x hi1 he2 (hslot1 i hi1')
    · have hle : (po1.filter (fun v => childIds nodes v = [])).length ≤ i := by
        omega
      have hj : i - (po1.filter (fun v => childIds nodes v = [])).length <
          (po2.filter (fun v => childIds nodes v = [])).length := by
        omega
      have hgr : (po1.filter (fun v => childIds nodes v = []) ++
          po2.filter (fun v => childIds nodes v = [])).get ⟨i, hibig⟩ =
          (po2.filter (fun v => childIds nodes v = [])).get
            ⟨i - (po1.filter (fun v => childIds nodes v = [])).length, hj⟩ := by
        simp only [List.get_eq_getElem]
        exact List.getElem_append_right hle
      rw [hgr, hslot2 _ hj, hnx1]
      congr 1
      rw [Nat.cast_sub hle]
      ring
  · intro w hw hkids
    rw [List.mem_append] at hw
    rcases hw with hw | hw
    · obtain ⟨hks, hmean⟩ := hmean1 w hw hkids
      have hkeq : ∀ k ∈ childIds nodes w,
          s2.xc.lookup k = s1.xc.lookup k := by
        intro k hk
        obtain ⟨x, hx⟩ := Option.isSome_iff_exists.mp (hks k hk)
        rw [hx]
        exact lookup_persist_x hi1 he2 hx
      refine ⟨?_, ?_⟩
      · intro k hk
        rw [hkeq k hk]
        exact hks k hk
      · have hmapeq : (childIds nodes w).map
            (fun k => ((s2.xc.lookup k).getD 0)) =
            (childIds nodes w).map (fun k => ((s1.xc.lookup k).getD 0)) :=
          List.map_congr_left (fun k hk => by rw [hkeq k hk])
        rw [hmapeq]
        exact lookup_persist_x hi1 he2 hmean
    · exact hmean2 w hw hkids
  · intro w hw
    rw [List.mem_append] at hw
    rcases hw with hw | hw
    · obtain ⟨x, hx⟩ := Option.isSome_iff_exists.mp (hcov1 w hw)
      rw [lookup_persist_x hi1 he2 hx]
      rfl
    · exact hcov2 w hw

/-- A well-formed node list has no duplicate entries. -/
theorem nodes_nodup {nodes : List Node} (h : wf nodes = true) : nodes.Nodup := by
  rw [List.nodup_iff_injective_getElem]
  intro i j hij
  have hi : nodes[(i : Nat)]? = some nodes[(i : Nat)] :=
    List.getElem?_eq_getElem i.2
  have hj : nodes[(j : Nat)]? = some nodes[(j : Nat)] :=
    List.getElem?_eq_getElem j.2
  have h1 := (wf_node_facts h i nodes[(i : Nat)] hi).1
  have h2 := (wf_node_facts h j nodes[(j : Nat)] hj).1
  have hij' : nodes[(i : Nat)] = nodes[(j : Nat)] := hij
  apply Fin.ext
  rw [← h1, ← h2, hij']

/-- The sorted children-id list has no duplicates. -/
theorem childIds_nodup {nodes : List Node} (h : wf nodes = true) (u : Nat) :
    (childIds nodes u).Nodup := by
  unfold childIds
  refine List.Nodup.map_on ?_ ?_
  · intro x hx y hy hxy
    have hx' : x ∈ nodes :=
      (List.mem_filter.mp ((List.perm_insertionSort childLE _).mem_iff.mp hx)).1
    have hy' : y ∈ nodes :=
      (List.mem_filter.mp ((List.perm_insertionSort childLE _).mem_iff.mp hy)).1
    have hgx := wf_mem_getElem h x hx'
    have hgy := wf_mem_getElem h y hy'
    rw [hxy] at hgx
    rw [hgx] at hgy
    injection hgy with hgy
  · exact ((List.perm_insertionSort childLE _).nodup_iff).mpr
      (List.Nodup.filter _ (nodes_nodup h))

/-- Consing a fresh key leaves every present binding's lookup unchanged. -/
theorem lookup_cons_eq_fresh {β : Type} {l : List (Nat × β)} {a : Nat}
    {v : β} {k : Nat} (hk : (l.lookup k).isSome = true)
    (ha : a ∉ l.map Prod.fst) : ((a, v) :: l).lookup k = l.lookup k := by
  obtain ⟨x, hx⟩ := Option.isSome_iff_exists.mp hk
  rw [hx]
  exact lookup_cons_of_some hx ha

/-- The mean formula for `w` transports through consing a fresh key. -/
theorem mean_cons_fresh {nodes : List Node} {w a : Nat}
    {xc1 : List (Nat × ℚ)} {v : ℚ}
    (hks : ∀ k ∈ childIds nodes w, (xc1.lookup k).isSome = true)
    (hmean : xc1.lookup w = some
      (((childIds nodes w).map (fun k => ((xc1.lookup k).getD 0))).sum /
        (((childIds nodes w).map (fun k => ((xc1.lookup k).getD 0))).length : ℚ)))
    (ha : a ∉ xc1.map Prod.fst) :
    (∀ k ∈ childIds nodes w, ((((a, v) :: xc1).lookup k).isSome = true)) ∧
    ((a, v) :: xc1).lookup w = some
      (((childIds nodes w).map (fun k => ((((a, v) :: xc1).lookup k).getD 0))).sum /
        (((childIds nodes w).map
          (fun k => ((((a, v) :: xc1).lookup k).getD 0))).length : ℚ)) := by
  have hkeq : ∀ k ∈ childIds nodes w,
      ((a, v) :: xc1).lookup k = xc1.lookup k :=
    fun k hk => lookup_cons_eq_fresh (hks k hk) ha
  refine ⟨fun k hk => by rw [hkeq k hk]; exact hks k hk, ?_⟩
  have hmapeq : (childIds nodes w).map (fun k => ((((a, v) :: xc1).lookup k).getD 0)) =
      (childIds nodes w).map (fun k => ((xc1.lookup k).getD 0)) :=
    List.map_congr_left (fun k hk => by rw [hkeq k hk])
  rw [hmapeq]
  exact lookup_cons_of_some hmean ha

/-- The children loop satisfies its spec whenever each single call does. -/
theorem dfsQ_of_dfsP {nodes : List Node}
    (xs ys : ℚ) (fuel : Nat) (hP : dfsP nodes xs ys fuel) :
    dfsQ nodes xs ys fuel := by
  intro ids
  induction ids with
  | nil =>
    intro st _ _ hinv _ _
    refine ⟨st, [], by simp [dfsChildren], by simp [postOrderChildren],
      ext_refl st, hinv, layoutSpec_nil nodes xs ys st, ?_⟩
    intro w
    simp
  | cons v vs ih =>
    intro st hnd hbound hinv hfresh hdisj
    have hvmem : v ∈ v :: vs := List.mem_cons_self _ _
    have hvfresh : v ∉ st.visited :=
      hfresh v hvmem v (descends_self nodes v)
    obtain ⟨st2, po2, hrun2, hpo2, hext2, hinv2, hspec2, hvis2⟩ :=
      hP st v (hbound v hvmem).1 (hbound v hvmem).2 hinv
        (fun _ => hfresh v hvmem)
    have hnd' := List.nodup_cons.mp hnd
    have hfresh' : ∀ u ∈ vs, ∀ w, descends nodes w u = true →
        w ∉ st2.visited := by
      intro u hu w hw hcon
      have hvu : v ≠ u := fun he => hnd'.1 (he ▸ hu)
      rcases (hvis2 w).mp hcon with hm | ⟨_, hdw⟩
      · exact hfresh u (List.mem_cons_of_mem _ hu) w hw hm
      · exact hdisj v hvmem u (List.mem_cons_of_mem _ hu) hvu w ⟨hdw, hw⟩
    obtain ⟨st3, po3, hrun3, hpo3, hext3, hinv3, hspec3, hvis3⟩ :=
      ih st2 hnd'.2 (fun u hu => hbound u (List.mem_cons_of_mem _ hu)) hinv2
        hfresh'
        (fun v1 h1 v2 h2 hne w =>
          hdisj v1 (List.mem_cons_of_mem _ h1) v2 (List.mem_cons_of_mem _ h2)
            hne w)
    refine ⟨st3, po2 ++ po3, ?_, ?_, ext_trans hext2 hext3, hinv3,
      layoutSpec_append hspec2 hspec3 hext2 hext3 hinv2, ?_⟩
    · simp only [dfsChildren, hrun2]
      exact hrun3
    · simp only [postOrderChildren, hpo2, hpo3]
    · intro w
      rw [hvis3 w, hvis2 w]
      constructor
      · rintro ((hm | ⟨_, hd⟩) | ⟨u, hu, hd⟩)
        · exact Or.inl hm
        · exact Or.inr ⟨v, hvmem, hd⟩
        · exact Or.inr ⟨u, List.mem_cons_of_mem _ hu, hd⟩
      · rintro (hm | ⟨u, hu, hd⟩)
        · exact Or.inl (Or.inl hm)
        · rcases List.mem_cons.mp hu with he | hu'
          · exact Or.inl (Or.inr ⟨he ▸ hvfresh, he ▸ hd⟩)
          · exact Or.inr ⟨u, hu', hd⟩

/-- Every `dfs` call satisfies its spec, at every fuel. -/
theorem dfsP_all {nodes : List Node} (hwf : wf nodes = true) (xs ys : ℚ) :
    ∀ fuel : Nat, dfsP nodes xs ys fuel := by
  intro fuel
  induction fuel with
  | zero =>
    intro st uId huId hfuel hinv hfresh
    exact absurd hfuel (by omega)
  | succ f ih =>
    have hQ := dfsQ_of_dfsP xs ys f ih
    intro st uId huId hfuel hinv hfresh
    by_cases hvis : uId ∈ st.visited
    · refine ⟨st, [], ?_, ?_, ext_refl st, hinv,
        layoutSpec_nil nodes xs ys st, ?_⟩
      · simp [dfsLayout, hvis]
      · simp [postOrder, hvis]
      · intro w
        simp [hvis]
    · have hfr : ∀ w, descends nodes w uId = true → w ∉ st.visited :=
        hfresh hvis
      have hkid_nd := childIds_nodup hwf uId
      have hkb : ∀ v ∈ childIds nodes uId,
          v < nodes.length ∧ nodes.length - v < f := by
        intro v hv
        obtain ⟨hlt, hN⟩ := childIds_lt hwf uId v hv
        exact ⟨hN, by omega⟩
      have hinv0 : stInv ⟨uId :: st.visited, st.xc, st.yc, st.nextX⟩ := by
        constructor
        · intro k hk
          exact List.mem_cons_of_mem _ (hinv.1 k hk)
        · intro k hk
          exact List.mem_cons_of_mem _ (hinv.2 k hk)
      have hfresh0 : ∀ v ∈ childIds nodes uId, ∀ w,
          descends nodes w v = true →
          w ∉ (⟨uId :: st.visited, st.xc, st.yc, st.nextX⟩ :
            LayoutState).visited := by
        intro v hv w hw
        have hvu := childIds_descends hwf uId v hv
        have hwu := descends_trans nodes w v uId hw hvu
        have hw1 : w ∉ st.visited := hfr w hwu
        have hlt : uId < v := (childIds_lt hwf uId v hv).1
        have hvw : v ≤ w := descends_le nodes w v hw
        intro hcon
        rcases List.mem_cons.mp hcon with he | hm
        · omega
        · exact hw1 hm
      have hdisj : ∀ v1 ∈ childIds nodes uId, ∀ v2 ∈ childIds nodes uId,
          v1 ≠ v2 → ∀ w,
          ¬(descends nodes w v1 = true ∧ descends nodes w v2 = true) := by
        intro v1 h1 v2 h2 hne w hcon
        exact siblings_disjoint hwf h1 h2 hne w hcon.1 hcon.2
      obtain ⟨st1, po1, hrun1, hpo1, hext1, hinv1, hspec1, hvis1⟩ :=
        hQ (childIds nodes uId) ⟨uId :: st.visited, st.xc, st.yc, st.nextX⟩
          hkid_nd hkb hinv0 hfresh0 hdisj
      dsimp only at hrun1 hpo1 hext1 hinv1 hspec1 hvis1
      have hsub0 : st.visited ⊆ st1.visited := fun w hw =>
        ext_visited_subset hext1 (List.mem_cons_of_mem _ hw)
      have huid1 : uId ∈ st1.visited :=
        ext_visited_subset hext1 (List.mem_cons_self _ _)
      have hnotin_xc : uId ∉ st1.xc.map Prod.fst := by
        intro hk
        obtain ⟨_, ⟨nx1, hx1, hxk1⟩, _⟩ := hext1
        rw [hx1, List.map_append, List.mem_append] at hk
        rcases hk with hk | hk
        · exact hxk1 uId hk (List.mem_cons_self _ _)
        · exact hvis (hinv.1 uId hk)
      have hnotin_yc : uId ∉ st1.yc.map Prod.fst := by
        intro hk
        obtain ⟨_, _, ⟨ny1, hy1, hyk1⟩⟩ := hext1
        rw [hy1, List.map_append, List.mem_append] at hk
        rcases hk with hk | hk
        · exact hyk1 uId hk (List.mem_cons_self _ _)
        · exact hvis (hinv.2 uId hk)
      obtain ⟨hnd1, hiff1, hy1', hnx1, hslot1, hmean1, hcov1⟩ := hspec1
      have huid_po1 : uId ∉ po1 := fun hm =>
        ((hiff1 uId).mp hm).1 (List.mem_cons_self _ _)
      by_cases hkids : childIds nodes uId = []
      · -- leaf: the children loop was trivial
        rw [hkids] at hrun1 hpo1
        simp only [dfsChildren] at hrun1
        simp only [postOrderChildren] at hpo1
        injection hrun1 with hst1
        injection hpo1 with hpo1'
        rw [Prod.mk.injEq] at hpo1'
        obtain ⟨hv1eq, hpo1eq⟩ := hpo1'
        refine ⟨⟨uId :: st.visited, (uId, st.nextX) :: st.xc,
          (uId, (depthOf nodes uId : ℚ) * ys) :: st.yc, st.nextX + xs⟩,
          [uId], ?_, ?_, ?_, ?_, ?_, ?_⟩
        · simp only [dfsLayout, if_neg hvis, hkids]
          simp [dfsChildren, ← hst1]
        · simp only [postOrder, if_neg hvis, hkids]
          simp [postOrderChildren]
        · exact ⟨⟨[uId], rfl⟩, ⟨[(uId, st.nextX)], rfl, by simp [hvis]⟩,
            ⟨[(uId, (depthOf nodes uId : ℚ) * ys)], rfl, by simp [hvis]⟩⟩
        · constructor
          · intro k hk
            rcases List.mem_cons.mp hk with he | hk
            · simp only [he]
              exact List.mem_cons_self _ _
            · exact List.mem_cons_of_mem _ (hinv.1 k hk)
          · intro k hk
            rcases List.mem_cons.mp hk with he | hk
            · simp only [he]
              exact List.mem_cons_self _ _
            · exact List.mem_cons_of_mem _ (hinv.2 k hk)
        · refine ⟨by simp, ?_, ?_, ?_, ?_, ?_, ?_⟩
          · intro w
            constructor
            · intro hw
              rcases List.mem_cons.mp hw with he | hw
              · subst he
                exact ⟨hvis, List.mem_cons_self _ _⟩
              · cases hw
            · rintro ⟨hnv, hv⟩
              rcases List.mem_cons.mp hv with he | hv
              · subst he
                exact List.mem_cons_self _ _
              · exact absurd hv hnv
          · intro w hw
            rcases List.mem_cons.mp hw with he | hw
            · subst he
              exact lookup_cons_self _ _ _
            · cases hw
          · have : ([uId].filter (fun v => childIds nodes v = [])) = [uId] := by
              simp [hkids]
            rw [this]
            simp
          · intro i hi
            have hL : ([uId].filter (fun v => childIds nodes v = [])) = [uId] := by
              simp [hkids]
            have hi1 : i < 1 := by
              rw [hL] at hi
              simpa using hi
            have hget : (([uId].filter (fun v => childIds nodes v = [])).get
                ⟨i, hi⟩) = uId := by
              simp only [List.get_eq_getElem]
              rw [List.getElem_of_eq hL hi]
              have : i = 0 := by omega
              subst this
              rfl
            rw [hget]
            have : i = 0 := by omega
            subst this
            rw [lookup_cons_self]
            norm_num
          · intro w hw hne
            rcases List.mem_cons.mp hw with he | hw
            · subst he
              exact absurd hkids hne
            · cases hw
          · intro w hw
            rcases List.mem_cons.mp hw with he | hw
            · subst he
              rw [lookup_cons_self]
              rfl
            · cases hw
        · intro w
          constructor
          · intro hw
            rcases List.mem_cons.mp hw with he | hw
            · subst he
              exact Or.inr ⟨hvis, descends_self nodes w⟩
            · exact Or.inl hw
          · rintro (hw | ⟨_, hdw⟩)
            · exact List.mem_cons_of_mem _ hw
            · by_cases hwu : w = uId
              · subst hwu
                exact List.mem_cons_self _ _
              · obtain ⟨v, hv, _⟩ := descends_to_child hwf w uId hdw hwu
                rw [hkids] at hv
                cases hv
      · -- internal node: children processed by the loop
        have hkcov : ∀ k ∈ childIds nodes uId,
            (st1.xc.lookup k).isSome = true := by
          intro k hk
          have hkpo : k ∈ po1 := (hiff1 k).mpr
            ⟨hfresh0 k hk k (descends_self nodes k),
             (hvis1 k).mpr (Or.inr ⟨k, hk, descends_self nodes k⟩)⟩
          exact hcov1 k hkpo
        refine ⟨⟨st1.visited,
          (uId, ((childIds nodes uId).map
              (fun k => ((st1.xc.lookup k).getD 0))).sum /
            (((childIds nodes uId).map
              (fun k => ((st1.xc.lookup k).getD 0))).length : ℚ)) :: st1.xc,
          (uId, (depthOf nodes uId : ℚ) * ys) :: st1.yc, st1.nextX⟩,
          po1 ++ [uId], ?_, ?_, ?_, ?_, ?_, ?_⟩
        · simp only [dfsLayout, if_neg hvis, hrun1, if_neg hkids]
        · simp only [postOrder, if_neg hvis, hpo1]
        · obtain ⟨⟨nv1, hv1⟩, ⟨nx1, hx1, hxk1⟩, ⟨ny1, hyy1, hyk1⟩⟩ := hext1
          refine ⟨⟨nv1 ++ [uId], ?_⟩,
            ⟨(uId, ((childIds nodes uId).map
                (fun k => ((st1.xc.lookup k).getD 0))).sum /
              (((childIds nodes uId).map
                (fun k => ((st1.xc.lookup k).getD 0))).length : ℚ)) :: nx1,
              ?_, ?_⟩,
            ⟨(uId, (depthOf nodes uId : ℚ) * ys) :: ny1, ?_, ?_⟩⟩
          · rw [hv1, ← List.singleton_append, ← List.append_assoc]
          · rw [hx1]
            rfl
          · intro k hk
            rcases List.mem_cons.mp hk with he | hk
            · simp only at he
              subst he
              exact hvis
            · exact fun hm => hxk1 k hk (List.mem_cons_of_mem _ hm)
          · rw [hyy1]
            rfl
          · intro k hk
            rcases List.mem_cons.mp hk with he | hk
            · simp only at he
              subst he
              exact hvis
            · exact fun hm => hyk1 k hk (List.mem_cons_of_mem _ hm)
        · constructor
          · intro k hk
            rcases List.mem_cons.mp hk with he | hk
            · simp only at he
              subst he
              exact huid1
            · exact hinv1.1 k hk
          · intro k hk
            rcases List.mem_cons.mp hk with he | hk
            · simp only at he
              subst he
              exact huid1
            · exact hinv1.2 k hk
        · refine ⟨?_, ?_, ?_, ?_, ?_, ?_, ?_⟩
          · rw [List.nodup_append]
            exact ⟨hnd1, by simp, fun w hw1 hw2 => by
              rcases List.mem_cons.mp hw2 with he | hc
              · exact huid_po1 (he ▸ hw1)
              · cases hc⟩
          · intro w
            rw [List.mem_append]
            constructor
            · rintro (hw | hw)
              · obtain ⟨hnv, hv⟩ := (hiff1 w).mp hw
                exact ⟨fun hm => hnv (List.mem_cons_of_mem _ hm), hv⟩
              · rcases List.mem_cons.mp hw with he | hc
                · subst he
                  exact ⟨hvis, huid1⟩
                · cases hc
            · rintro ⟨hnv, hv⟩
              by_cases hwu : w = uId
              · exact Or.inr (by simp [hwu])
              · refine Or.inl ((hiff1 w).mpr ⟨?_, hv⟩)
                intro hm
                rcases List.mem_cons.mp hm with he | hm
                · exact hwu he
                · exact hnv hm
          · intro w hw
            rw [List.mem_append] at hw
            rcases hw with hw | hw
            · exact lookup_cons_of_some (hy1' w hw) hnotin_yc
            · rcases List.mem_cons.mp hw with he | hc
              · subst he
                exact lookup_cons_self _ _ _
              · cases hc
          · have hLeq : ((po1 ++ [uId]).filter
                (fun v => childIds nodes v = [])) =
                po1.filter (fun v => childIds nodes v = []) := by
              rw [List.filter_append]
              simp [hkids]
            rw [hLeq]
            exact hnx1
          · intro i hi
            have hLeq : ((po1 ++ [uId]).filter
                (fun v => childIds nodes v = [])) =
                po1.filter (fun v => childIds nodes v = []) := by
              rw [List.filter_append]
              simp [hkids]
            have hi1 : i < (po1.filter
                (fun v => childIds nodes v = [])).length := by
              rw [hLeq] at hi
              exact hi
            have hget : (((po1 ++ [uId]).filter
                (fun v => childIds nodes v = [])).get ⟨i, hi⟩) =
                (po1.filter (fun v => childIds nodes v = [])).get ⟨i, hi1⟩ := by
              simp only [List.get_eq_getElem]
              exact List.getElem_of_eq hLeq hi
            rw [hget]
            have hs := hslot1 i hi1
            exact lookup_cons_of_some hs hnotin_xc
          · intro w hw hne
            rw [List.mem_append] at hw
            rcases hw with hw | hw
            · exact mean_cons_fresh (hmean1 w hw hne).1 (hmean1 w hw hne).2
                hnotin_xc
            · rcases List.mem_cons.mp hw with he | hc
              · subst he
                have hkeq : ∀ k ∈ childIds nodes w,
                    (((w, ((childIds nodes w).map
                        (fun k => ((st1.xc.lookup k).getD 0))).sum /
                      (((childIds nodes w).map
                        (fun k => ((st1.xc.lookup k).getD 0))).length : ℚ)) ::
                      st1.xc).lookup k) = st1.xc.lookup k :=
                  fun k hk => lookup_cons_eq_fresh (hkcov k hk) hnotin_xc
                refine ⟨fun k hk => by rw [hkeq k hk]; exact hkcov k hk, ?_⟩
                have hmapeq : (childIds nodes w).map
                    (fun k => ((((w, ((childIds nodes w).map
                        (fun k => ((st1.xc.lookup k).getD 0))).sum /
                      (((childIds nodes w).map
                        (fun k => ((st1.xc.lookup k).getD 0))).length : ℚ)) ::
                      st1.xc).lookup k).getD 0)) =
                    (childIds nodes w).map
                      (fun k => ((st1.xc.lookup k).getD 0)) :=
                  List.map_congr_left (fun k hk => by rw [hkeq k hk])
                rw [hmapeq, lookup_cons_self]
              · cases hc
          · intro w hw
            rw [List.mem_append] at hw
            rcases hw with hw | hw
            · obtain ⟨x, hx⟩ := Option.isSome_iff_exists.mp (hcov1 w hw)
              rw [lookup_cons_of_some hx hnotin_xc]
              rfl
            · rcases List.mem_cons.mp hw with he | hc
              · subst he
                rw [lookup_cons_self]
                rfl
              · cases hc
        · intro w
          rw [hvis1 w]
          constructor
          · rintro (hw | ⟨v, hv, hd⟩)
            · rcases List.mem_cons.mp hw with he | hw
              · subst he
                exact Or.inr ⟨hvis, descends_self nodes w⟩
              · exact Or.inl hw
            · exact Or.inr ⟨hvis,
                descends_trans nodes w v uId hd (childIds_descends hwf uId v hv)⟩
          · rintro (hw | ⟨_, hdw⟩)
            · exact Or.inl (List.mem_cons_of_mem _ hw)
            · by_cases hwu : w = uId
              · subst hwu
                exact Or.inl (List.mem_cons_self _ _)
              · obtain ⟨v, hv, hdv⟩ := descends_to_child hwf w uId hdw hwu
                exact Or.inr ⟨v, hv, hdv⟩

/-- The defensive pass does nothing when everything is already visited. -/
theorem fallbackLoop_visited (nodes : List Node) (xs ys : ℚ) (fuel : Nat) :
    ∀ (rest : List Node) (st : LayoutState),
      (∀ n ∈ rest, n.id ∈ st.visited) →
      fallbackLoop nodes xs ys fuel rest st = some st := by
  intro rest
  induction rest with
  | nil =>
    intro st _
    simp [fallbackLoop]
  | cons n ns ih =>
    intro st h
    simp only [fallbackLoop, if_pos (h n (List.mem_cons_self _ _))]
    exact ih st (fun m hm => h m (List.mem_cons_of_mem _ hm))

/-- Projecting the first coordinate back out of the final map recovers the
x-coordinate table. -/
theorem res_lookup_fst (xc : List (Nat × ℚ)) (g : Nat → ℚ) (k : Nat) :
    ((xc.map (fun p => (p.1, p.2, g p.1))).lookup k).map Prod.fst =
      xc.lookup k := by
  rw [lookup_map_snd]
  cases xc.lookup k <;> rfl

/-- C7: on a well-formed node list (unique ids equal to positions, a unique
root, parents strictly earlier) and positive spacings, `map_top_down_tree`
assigns a coordinate to every node id; every node's y is `depth * y_spacing`;
every internal node's x is the arithmetic mean of its children's x; and the
leaves, in sorted post-order traversal order, receive the consecutive slots
`0·xs, 1·xs, 2·xs, ...` — in particular all leaf x-coordinates are pairwise
distinct, and every leaf occurs in that traversal. -/
theorem map_top_down_tree_c7 (nodes : List Node) (xs ys : ℚ) (fuel : Nat)
    (hwf : wf nodes = true) (hx : 0 < xs) (hy : 0 < ys)
    (hfuel : nodes.length < fuel) :
    ∃ (res : List (Nat × ℚ × ℚ)) (vis po : List Nat),
      map_top_down_tree fuel nodes xs ys = some res ∧
      postOrder nodes fuel [] (rootIdOf nodes) = some (vis, po) ∧
      (∀ n ∈ nodes, ∃ x : ℚ,
        res.lookup n.id = some (x, (n.depth : ℚ) * ys)) ∧
      (∀ n ∈ nodes, childIds nodes n.id ≠ [] →
        (∀ k ∈ childIds nodes n.id,
          ((res.lookup k).map Prod.fst).isSome = true) ∧
        ((res.lookup n.id).map Prod.fst) = some
          ((((childIds nodes n.id).map
            (fun k => (((res.lookup k).map Prod.fst).getD 0))).sum) /
            (((childIds nodes n.id).map
              (fun k => (((res.lookup k).map Prod.fst).getD 0))).length : ℚ))) ∧
      (∀ (i : Nat)
        (hi : i < (po.filter (fun v => childIds nodes v = [])).length),
        ((res.lookup ((po.filter (fun v => childIds nodes v = [])).get
          ⟨i, hi⟩)).map Prod.fst) = some ((i : ℚ) * xs)) ∧
      (∀ (i j : Nat)
        (hi : i < (po.filter (fun v => childIds nodes v = [])).length)
        (hj : j < (po.filter (fun v => childIds nodes v = [])).length),
        i ≠ j →
        ((res.lookup ((po.filter (fun v => childIds nodes v = [])).get
          ⟨i, hi⟩)).map Prod.fst) ≠
        ((res.lookup ((po.filter (fun v => childIds nodes v = [])).get
          ⟨j, hj⟩)).map Prod.fst)) ∧
      (∀ n ∈ nodes, childIds nodes n.id = [] →
        n.id ∈ po.filter (fun v => childIds nodes v = [])) := by
  have hP := dfsP_all hwf xs ys fuel
  obtain ⟨r, hroot_get, hroot_none, huniq⟩ := rootId_spec hwf
  have hrootlt : rootIdOf nodes < nodes.length := by
    by_contra hge
    rw [List.getElem?_eq_none (by omega)] at hroot_get
    cases hroot_get
  obtain ⟨st1, po, hrun1, hpo1, hext1, hinv1, hspec1, hvis1⟩ :=
    hP ⟨[], [], [], 0⟩ (rootIdOf nodes) hrootlt (by omega) ⟨by simp, by simp⟩
      (fun _ w _ => by simp)
  dsimp only at hrun1 hpo1 hvis1
  obtain ⟨hnd, hiff, hyl, hnx, hslot, hmean, hcov⟩ := hspec1
  dsimp only at hiff hyl hnx hslot hmean hcov
  have hpo_mem : ∀ w, w ∈ po ↔ w ∈ st1.visited := by
    intro w
    rw [hiff w]
    simp
  have hallvis : ∀ n ∈ nodes, n.id ∈ st1.visited := by
    intro n hn
    have hget := wf_mem_getElem hwf n hn
    have hid_lt : n.id < nodes.length := by
      by_contra hge
      rw [List.getElem?_eq_none (by omega)] at hget
      cases hget
    exact (hvis1 n.id).mpr
      (Or.inr ⟨by simp, all_descend_root hwf n.id hid_lt⟩)
  have hfall := fallbackLoop_visited nodes xs ys fuel nodes st1 hallvis
  have hne := wf_ne_nil hwf
  refine ⟨st1.xc.map (fun p => (p.1, p.2, (st1.yc.lookup p.1).getD 0)),
    st1.visited, po, ?_, hpo1, ?_, ?_, ?_, ?_, ?_⟩
  · unfold map_top_down_tree
    rw [if_neg hne, hrun1]
    simp only []
    rw [hfall]
  · -- coverage and y
    intro n hn
    have hget := wf_mem_getElem hwf n hn
    have hid_po : n.id ∈ po := (hpo_mem n.id).mpr (hallvis n hn)
    obtain ⟨x, hxv⟩ := Option.isSome_iff_exists.mp (hcov n.id hid_po)
    have hyv := hyl n.id hid_po
    have hdep : depthOf nodes n.id = n.depth := by
      unfold depthOf
      rw [hget]
      rfl
    have hlk : (st1.xc.map
        (fun p => (p.1, p.2, (st1.yc.lookup p.1).getD 0))).lookup n.id =
        (st1.xc.lookup n.id).map
          (fun x => (x, (st1.yc.lookup n.id).getD 0)) :=
      lookup_map_snd st1.xc (fun a => (st1.yc.lookup a).getD 0) n.id
    refine ⟨x, ?_⟩
    rw [hlk, hxv, hyv]
    simp [hdep]
  · -- internal mean
    intro n hn hkne
    have hid_po : n.id ∈ po := (hpo_mem n.id).mpr (hallvis n hn)
    obtain ⟨hks, hmn⟩ := hmean n.id hid_po hkne
    have hconv : ∀ k : Nat,
        (((st1.xc.map (fun p => (p.1, p.2, (st1.yc.lookup p.1).getD 0))).lookup
          k).map Prod.fst) = st1.xc.lookup k :=
      fun k => res_lookup_fst st1.xc (fun a => (st1.yc.lookup a).getD 0) k
    constructor
    · intro k hk
      rw [hconv k]
      exact hks k hk
    · rw [hconv n.id]
      have hmapeq : (childIds nodes n.id).map
          (fun k => ((((st1.xc.map
            (fun p => (p.1, p.2, (st1.yc.lookup p.1).getD 0))).lookup k).map
              Prod.fst).getD 0)) =
          (childIds nodes n.id).map (fun k => ((st1.xc.lookup k).getD 0)) :=
        List.map_congr_left (fun k _ => by rw [hconv k])
      rw [hmapeq]
      exact hmn
  · -- leaf slots
    intro i hi
    have hconv : ∀ k : Nat,
        (((st1.xc.map (fun p => (p.1, p.2, (st1.yc.lookup p.1).getD 0))).lookup
          k).map Prod.fst) = st1.xc.lookup k :=
      fun k => res_lookup_fst st1.xc (fun a => (st1.yc.lookup a).getD 0) k
    rw [hconv]
    have hs := hslot i hi
    rw [hs]
    norm_num
  · -- distinct leaf x-coordinates
    intro i j hi hj hij
    have hconv : ∀ k : Nat,
        (((st1.xc.map (fun p => (p.1, p.2, (st1.yc.lookup p.1).getD 0))).lookup
          k).map Prod.fst) = st1.xc.lookup k :=
      fun k => res_lookup_fst st1.xc (fun a => (st1.yc.lookup a).getD 0) k
    rw [hconv, hconv, hslot i hi, hslot j hj]
    intro hcon
    rw [Option.some.injEq, zero_add, zero_add] at hcon
    have hcast : (i : ℚ) = (j : ℚ) := mul_right_cancel₀ (ne_of_gt hx) hcon
    exact hij (by exact_mod_cast hcast)
  · -- every leaf occurs in the traversal
    intro n hn hleaf
    refine List.mem_filter.mpr ⟨(hpo_mem n.id).mpr (hallvis n hn), ?_⟩
    simp [hleaf]

/-- Witness for C7: the seeded 5-node chain with unit spacings. -/
theorem map_top_down_tree_c7_witness :
    wf seedNodes = true ∧ (0 : ℚ) < 1 ∧ 5 < 6 ∧
    (∃ (res : List (Nat × ℚ × ℚ)) (vis po : List Nat),
      map_top_down_tree 6 seedNodes 1 1 = some res ∧
      postOrder seedNodes 6 [] (rootIdOf seedNodes) = some (vis, po) ∧
      (∀ n ∈ seedNodes, ∃ x : ℚ,
        res.lookup n.id = some (x, (n.depth : ℚ) * 1)) ∧
      (∀ n ∈ seedNodes, childIds seedNodes n.id ≠ [] →
        (∀ k ∈ childIds seedNodes n.id,
          ((res.lookup k).map Prod.fst).isSome = true) ∧
        ((res.lookup n.id).map Prod.fst) = some
          ((((childIds seedNodes n.id).map
            (fun k => (((res.lookup k).map Prod.fst).getD 0))).sum) /
            (((childIds seedNodes n.id).map
              (fun k => (((res.lookup k).map Prod.fst).getD 0))).length : ℚ))) ∧
      (∀ (i : Nat)
        (hi : i < (po.filter (fun v => childIds seedNodes v = [])).length),
        ((res.lookup ((po.filter (fun v => childIds seedNodes v = [])).get
          ⟨i, hi⟩)).map Prod.fst) = some ((i : ℚ) * 1)) ∧
      (∀ (i j : Nat)
        (hi : i < (po.filter (fun v => childIds seedNodes v = [])).length)
        (hj : j < (po.filter (fun v => childIds seedNodes v = [])).length),
        i ≠ j →
        ((res.lookup ((po.filter (fun v => childIds seedNodes v = [])).get
          ⟨i, hi⟩)).map Prod.fst) ≠
        ((res.lookup ((po.filter (fun v => childIds seedNodes v = [])).get
          ⟨j, hj⟩)).map Prod.fst)) ∧
      (∀ n ∈ seedNodes, childIds seedNodes n.id = [] →
        n.id ∈ po.filter (fun v => childIds seedNodes v = []))) :=
  ⟨by decide, by norm_num, by norm_num,
    map_top_down_tree_c7 seedNodes 1 1 6 (by decide) (by norm_num)
      (by norm_num) (by decide)⟩

end CollatzBenford
